import Mathlib

/-!
# cni-ipam-etcd: the etcd-backed reservation and locking store

A shallow embedding of `backend/etcd/backend.go`.

* The etcd cluster is an explicit state (`Server`): a key-value map with, per key, the
  value, the create revision and the attached lease; the set of live leases; the header
  revision.
* The client handle is a `Client`: the server it talks to together with the log of the
  service calls issued so far.  Every service call appends one `Call` to the log.
* What the program cannot control is an `Oracle`: which service calls fail, which lease
  identifier the server hands out on a grant, and what other clients and lease expiry do
  to the server while `Lock` sleeps between two attempts.
* Go's `error` is `Option Error` (`none` is `nil`); `(bool, error)` is a pair.
-/

namespace CniIpamEtcd

/-! ## Errors -/

/-- The two `strconv.NumError` causes. -/
inductive NumErrKind where
  | ErrSyntax
  | ErrRange
deriving DecidableEq, Repr

/-- Go `error` values that reach the caller of the store. -/
inductive Error where
  /-- an error returned by an etcd client call -/
  | rpc (msg : String)
  /-- `errors.New(text)` -/
  | new (text : String)
  /-- `*strconv.NumError{Func, Num, Err}` -/
  | num (func : String) (input : String) (kind : NumErrKind)
  /-- a run-time panic; it ends the process instead of being returned -/
  | panic (msg : String)
deriving DecidableEq, Repr

/-! ## The etcd service -/

/-- What the server keeps for one key (the fields the program can observe). -/
structure Entry where
  value : String
  /-- revision of the write that created the key; etcd revisions of existing keys are positive -/
  createRevision : ℕ+
  /-- identifier of the attached lease, `0` for none (`clientv3.NoLease`) -/
  lease : Int
deriving DecidableEq

/-- `mvccpb.KeyValue` as returned in a range response. -/
structure KeyValue where
  Key : String
  Value : String
  CreateRevision : Nat
  Lease : Int
deriving DecidableEq

/-- The key-value map of the server. -/
abbrev KeySpace := AList (fun _ : String => Entry)

/-- Two key spaces are compared entry by entry. -/
instance instDecidableEqKeySpace : DecidableEq KeySpace :=
  fun a b => decidable_of_iff (a.entries = b.entries) AList.ext_iff.symm

/-- State of the etcd cluster. -/
structure Server where
  kvs : KeySpace
  /-- identifiers of the live leases -/
  leases : List Int
  /-- header revision, incremented by every write -/
  revision : Nat
deriving DecidableEq

/-- The operations a transaction branch can hold (`clientv3.Op`). -/
inductive Op where
  | put (key value : String) (lease : Int)
  | get (key : String)
deriving DecidableEq

/-- One service call, as it is logged. -/
inductive Call where
  | get (key : String)
  | getPrefix (key : String)
  | put (key value : String)
  | delete (key : String)
  | grant (ttl : Int)
  | revoke (id : Int)
  /-- `If(CreateRevision(key) = rev).Then(thenOp).Else(elseOp)` -/
  | txn (key : String) (rev : Nat) (thenOp elseOp : Op)
deriving DecidableEq

/-- The client handle: the server and the calls issued so far (oldest first). -/
structure Client where
  server : Server
  log : List Call
deriving DecidableEq

/-- Everything outside the program's control. -/
structure Oracle where
  /-- `fault n = some e`: the service call issued when `n` calls are already logged fails
  with `e` and has no effect on the server -/
  fault : Nat → Option Error
  /-- identifier the server assigns to the lease granted by call number `n` -/
  leaseID : Nat → Int
  /-- effect of the other clients and of lease expiry on the server during the `i`-th
  sleep of `Lock` -/
  interfere : Nat → Server → Server

/-- The oracle of a fault-free store used by one client alone. -/
def Oracle.quiet (ids : Nat → Int) : Oracle :=
  ⟨fun _ => none, ids, fun _ s => s⟩

/-- `RangeResponse`: the fields the program reads. -/
structure GetResponse where
  Kvs : List KeyValue
  Count : Nat
deriving DecidableEq

/-- `TxnResponse`: the field the program reads. -/
structure TxnResponse where
  Succeeded : Bool
deriving DecidableEq

/-- `strings.HasPrefix`. -/
def hasPrefix (s pre : String) : Bool :=
  pre.data.isPrefixOf s.data

def Server.toKeyValue (e : Sigma fun _ : String => Entry) : KeyValue :=
  ⟨e.1, e.2.value, e.2.createRevision, e.2.lease⟩

/-- The key-value pairs under one key. -/
def Server.range (s : Server) (key : String) : List KeyValue :=
  match s.kvs.lookup key with
  | some e => [⟨key, e.value, e.createRevision, e.lease⟩]
  | none => []

/-- Lexicographic order of two texts, character by character; on Go strings this is the
byte-wise order in which etcd keeps its keys. -/
def charsLE : List Char → List Char → Bool
  | [], _ => true
  | _ :: _, [] => false
  | a :: as, b :: bs =>
    if a.toNat < b.toNat then true
    else if b.toNat < a.toNat then false
    else charsLE as bs

/-- The order of the keys on the server. -/
def keyLE (e1 e2 : Sigma fun _ : String => Entry) : Prop :=
  charsLE e1.1.data e2.1.data = true

instance keyLE.decidable : DecidableRel keyLE :=
  fun e1 e2 => inferInstanceAs (Decidable (charsLE e1.1.data e2.1.data = true))

/-- The key-value pairs whose key starts with `pre`, in ascending order of the keys: the
order in which the server answers a range request. -/
def Server.rangePrefix (s : Server) (pre : String) : List KeyValue :=
  ((s.kvs.entries.filter fun e => hasPrefix e.1 pre).insertionSort keyLE).map
    Server.toKeyValue

/-- The create revision of a key; `0` when the key does not exist. -/
def Server.createRevision (s : Server) (key : String) : Nat :=
  match s.kvs.lookup key with
  | some e => e.createRevision
  | none => 0

/-- A put: a new key is created at the new revision, an existing key keeps its create
revision; the value and the lease are replaced. -/
def Server.put (s : Server) (key value : String) (lease : Int) : Server :=
  let cr : ℕ+ := match s.kvs.lookup key with
    | some e => e.createRevision
    | none => ⟨s.revision + 1, Nat.succ_pos _⟩
  { s with kvs := s.kvs.insert key ⟨value, cr, lease⟩, revision := s.revision + 1 }

/-- A delete of one key; deleting an absent key changes nothing. -/
def Server.delete (s : Server) (key : String) : Server :=
  match s.kvs.lookup key with
  | some _ => { s with kvs := s.kvs.erase key, revision := s.revision + 1 }
  | none => s

/-- A lease grant: the lease becomes live. -/
def Server.grant (s : Server) (id : Int) : Server :=
  { s with leases := id :: s.leases }

/-- Removal of every key attached to lease `id`. -/
def Server.dropLease (kvs : KeySpace) (id : Int) : List String → KeySpace
  | [] => kvs
  | k :: ks =>
    match kvs.lookup k with
    | some e => if e.lease = id then Server.dropLease (kvs.erase k) id ks
                else Server.dropLease kvs id ks
    | none => Server.dropLease kvs id ks

/-- A lease revoke: the lease stops being live and the keys attached to it are deleted.
Revoking a lease that is not live (or `NoLease`) is refused by the server. -/
def Server.revoke (s : Server) (id : Int) : Option Server :=
  if id ≠ 0 ∧ id ∈ s.leases then
    some { s with kvs := Server.dropLease s.kvs id s.kvs.keys,
                  leases := s.leases.filter (fun l => l ≠ id),
                  revision := s.revision + 1 }
  else none

/-- Effect of one transaction operation. -/
def Server.applyOp (s : Server) : Op → Server
  | .put key value lease => s.put key value lease
  | .get _ => s

/-! ### Client calls

Each call logs itself; when the oracle makes it fail it returns the error and leaves the
server alone. -/

def Client.logged (c : Client) (call : Call) (server : Server) : Client :=
  ⟨server, c.log ++ [call]⟩

/-- `EtcdClient.Get(ctx, key)`. -/
def Client.Get (o : Oracle) (c : Client) (key : String) : Except Error GetResponse × Client :=
  match o.fault c.log.length with
  | some e => (.error e, c.logged (.get key) c.server)
  | none =>
    let kvs := c.server.range key
    (.ok ⟨kvs, kvs.length⟩, c.logged (.get key) c.server)

/-- `EtcdClient.Get(ctx, key, clientv3.WithPrefix())`. -/
def Client.GetPrefix (o : Oracle) (c : Client) (key : String) :
    Except Error GetResponse × Client :=
  match o.fault c.log.length with
  | some e => (.error e, c.logged (.getPrefix key) c.server)
  | none =>
    let kvs := c.server.rangePrefix key
    (.ok ⟨kvs, kvs.length⟩, c.logged (.getPrefix key) c.server)

/-- `EtcdClient.Put(ctx, key, value)`. -/
def Client.Put (o : Oracle) (c : Client) (key value : String) : Except Error Unit × Client :=
  match o.fault c.log.length with
  | some e => (.error e, c.logged (.put key value) c.server)
  | none => (.ok (), c.logged (.put key value) (c.server.put key value 0))

/-- `EtcdClient.Delete(ctx, key)`. -/
def Client.Delete (o : Oracle) (c : Client) (key : String) : Except Error Unit × Client :=
  match o.fault c.log.length with
  | some e => (.error e, c.logged (.delete key) c.server)
  | none => (.ok (), c.logged (.delete key) (c.server.delete key))

/-- `lease.Grant(ctx, ttl)`: the response carries the identifier the server chose. -/
def Client.Grant (o : Oracle) (c : Client) (ttl : Int) : Except Error Int × Client :=
  match o.fault c.log.length with
  | some e => (.error e, c.logged (.grant ttl) c.server)
  | none =>
    let id := o.leaseID c.log.length
    (.ok id, c.logged (.grant ttl) (c.server.grant id))

/-- `lease.Revoke(ctx, id)`. -/
def Client.Revoke (o : Oracle) (c : Client) (id : Int) : Except Error Unit × Client :=
  match o.fault c.log.length with
  | some e => (.error e, c.logged (.revoke id) c.server)
  | none =>
    match c.server.revoke id with
    | some s => (.ok (), c.logged (.revoke id) s)
    | none => (.error (.rpc "etcdserver: requested lease not found"),
               c.logged (.revoke id) c.server)

/-- `txn.If(Compare(CreateRevision(key), "=", rev)).Then(thenOp).Else(elseOp).Commit()`:
the comparison and the chosen branch are one atomic step.  A put names a lease that is
live: the program only ever names the lease granted by the call just before. -/
def Client.Txn (o : Oracle) (c : Client) (key : String) (rev : Nat) (thenOp elseOp : Op) :
    Except Error TxnResponse × Client :=
  match o.fault c.log.length with
  | some e => (.error e, c.logged (.txn key rev thenOp elseOp) c.server)
  | none =>
    if c.server.createRevision key = rev then
      (.ok ⟨true⟩, c.logged (.txn key rev thenOp elseOp) (c.server.applyOp thenOp))
    else
      (.ok ⟨false⟩, c.logged (.txn key rev thenOp elseOp) (c.server.applyOp elseOp))

/-! ## Go library functions the store calls

`net.IP`, `IP.String`, `net.ParseIP`, `strconv.FormatInt` and `strconv.ParseInt`, written
after the Go standard library.  Go strings are handled as lists of characters; every
character these functions test is ASCII. -/

/-- Go's `byte`. -/
abbrev Byte := Fin 256

/-- `net.IP`: a byte slice; the `nil` slice and the empty slice are both `[]`. -/
abbrev IP := List Byte

/-- The conversion `byte(n)`. -/
def toByte (n : Nat) : Byte := ⟨n % 256, Nat.mod_lt _ (by decide)⟩

/-- `byte('0' + d)`. -/
def digitChar (d : Nat) : Char := Char.ofNat (48 + d)

/-- `hexDigit[d]` for `hexDigit = "0123456789abcdef"`. -/
def hexDigit (d : Nat) : Char := if d < 10 then Char.ofNat (48 + d) else Char.ofNat (87 + d)

/-- The loop of `uitoa`, filling the 20-byte buffer from the right. -/
def uitoaLoop : Nat → Nat → List Char → List Char
  | 0, _, buf => buf
  | room + 1, val, buf =>
    if val ≥ 10 then uitoaLoop room (val / 10) (digitChar (val % 10) :: buf)
    else digitChar val :: buf

/-- `uitoa`: decimal text of an unsigned integer. -/
def uitoa (val : Nat) : List Char :=
  if val = 0 then ['0'] else uitoaLoop 20 val []

/-- `hexString`: two lower-case hexadecimal digits per byte. -/
def hexString (b : List Byte) : List Char :=
  b.flatMap fun x => [hexDigit (x.val / 16), hexDigit (x.val % 16)]

/-- `appendHex`: hexadecimal text of a 16-bit group without leading zeros. -/
def appendHex (i : Nat) : List Char :=
  if i = 0 then ['0']
  else ([3, 2, 1, 0].filter fun j => i / 16 ^ j > 0).map fun j => hexDigit (i / 16 ^ j % 16)

/-- The twelve bytes that start the 16-byte form of an IPv4 address. -/
def v4InV6Prefix : IP := [0, 0, 0, 0, 0, 0, 0, 0, 0, 0, 255, 255]

/-- `net.IPv4(a, b, c, d)`: the 16-byte form of an IPv4 address. -/
def IPv4 (a b c d : Byte) : IP := v4InV6Prefix ++ [a, b, c, d]

/-- `IP.To4`: the 4-byte form of an IPv4 address, `nil` for anything else. -/
def IP.To4 (ip : IP) : IP :=
  if ip.length = 4 then ip
  else if ip.length = 16 ∧ ip.take 12 = v4InV6Prefix then ip.drop 12
  else []

/-- `IP.To16`: the 16-byte form of an address, `nil` for a slice of another length. -/
def IP.To16 (ip : IP) : IP :=
  match ip with
  | [a, b, c, d] => IPv4 a b c d
  | _ => if ip.length = 16 then ip else []

/-- `IP.Equal`: the same address, a 4-byte IPv4 address and its 16-byte form being equal. -/
def IP.Equal (ip x : IP) : Bool :=
  if ip.length = x.length then decide (ip = x)
  else if ip.length = 4 ∧ x.length = 16 then
    decide (x.take 12 = v4InV6Prefix) && decide (ip = x.drop 12)
  else if ip.length = 16 ∧ x.length = 4 then
    decide (ip.take 12 = v4InV6Prefix) && decide (ip.drop 12 = x)
  else false

/-- The eight 16-bit groups of a 16-byte address. -/
def groups : List Byte → List Nat
  | a :: b :: rest => (a.val * 256 + b.val) :: groups rest
  | _ => []

/-- Length of the run of zero groups that starts the list. -/
def zeroRun : List Nat → Nat
  | 0 :: gs => zeroRun gs + 1
  | _ => 0

/-- The search of `IP.String` for the longest run of zero groups, in group positions:
`i` is the position of `gs` in the address, `(e0, e1)` the best run so far
(`(-1, -1)` for none), `skip` the groups still to step over after a run was taken. -/
def findZeros : List Nat → Nat → Nat → Int → Int → Int × Int
  | [], _, _, e0, e1 => (e0, e1)
  | _ :: gs, i, skip + 1, e0, e1 => findZeros gs (i + 1) skip e0 e1
  | g :: gs, i, 0, e0, e1 =>
    let n := zeroRun (g :: gs)
    if n > 0 ∧ (n : Int) > e1 - e0 then findZeros gs (i + 1) n i (i + n)
    else findZeros gs (i + 1) 0 e0 e1

/-- The printing loop of `IP.String` for a 16-byte address, in group positions: `skip`
counts the groups of the elided run still to step over, `fresh` says that the next group
printed follows the `::` directly and takes no separator. -/
def printGroups : List Nat → Nat → Nat → Bool → Int → Int → List Char
  | [], _, _, _, _, _ => []
  | _ :: gs, i, skip + 1, fresh, e0, e1 => printGroups gs (i + 1) skip fresh e0 e1
  | g :: gs, i, 0, fresh, e0, e1 =>
    if (i : Int) = e0 then
      ':' :: ':' :: printGroups gs (i + 1) (e1 - e0 - 1).toNat true e0 e1
    else
      (if i > 0 ∧ fresh = false then [':'] else []) ++ appendHex g
        ++ printGroups gs (i + 1) 0 false e0 e1

/-- `IP.String`. -/
def IP.String (ip : IP) : String :=
  if ip.length = 0 then "<nil>"
  else
    match ip.To4 with
    | [a, b, c, d] =>
      ⟨uitoa a.val ++ '.' :: uitoa b.val ++ '.' :: uitoa c.val ++ '.' :: uitoa d.val⟩
    | _ =>
      if ip.length ≠ 16 then ⟨'?' :: hexString ip⟩
      else
        let gs := groups ip
        let e := findZeros gs 0 0 (-1) (-1)
        -- "::" is not used to shorten just one group
        let e := if e.2 - e.1 ≤ 1 then (-1, -1) else e
        ⟨printGroups gs 0 0 false e.1 e.2⟩

/-- The bound `big` of the `net` package's number readers. -/
def big : Nat := 0xFFFFFF

/-- The loop of `dtoi`: `n` the value so far, `i` the digits read. -/
def dtoiLoop : List Char → Nat → Nat → Nat × Nat × Bool × List Char
  | [], n, i => (n, i, i ≠ 0, [])
  | c :: cs, n, i =>
    if '0' ≤ c ∧ c ≤ '9' then
      let n := n * 10 + (c.toNat - '0'.toNat)
      if n ≥ big then (big, i, false, c :: cs) else dtoiLoop cs n (i + 1)
    else (n, i, i ≠ 0, c :: cs)

/-- `dtoi`: the decimal number that starts `s`; returns `(n, i, ok)` and the text `s[i:]`. -/
def dtoi (s : List Char) : Nat × Nat × Bool × List Char :=
  match dtoiLoop s 0 0 with
  | (n, i, ok, rest) => if i = 0 then (0, 0, false, rest) else (n, i, ok, rest)

/-- The loop of `xtoi`. -/
def xtoiLoop : List Char → Nat → Nat → Nat × Nat × Bool × List Char
  | [], n, i => (n, i, i ≠ 0, [])
  | c :: cs, n, i =>
    let d : Option Nat :=
      if '0' ≤ c ∧ c ≤ '9' then some (c.toNat - '0'.toNat)
      else if 'a' ≤ c ∧ c ≤ 'f' then some (c.toNat - 'a'.toNat + 10)
      else if 'A' ≤ c ∧ c ≤ 'F' then some (c.toNat - 'A'.toNat + 10)
      else none
    match d with
    | some d =>
      let n := n * 16 + d
      if n ≥ big then (0, i, false, c :: cs) else xtoiLoop cs n (i + 1)
    | none => (n, i, i ≠ 0, c :: cs)

/-- `xtoi`: the hexadecimal number that starts `s`; returns `(n, i, ok)` and `s[i:]`. -/
def xtoi (s : List Char) : Nat × Nat × Bool × List Char :=
  match xtoiLoop s 0 0 with
  | (n, i, ok, rest) => if i = 0 then (0, 0, false, rest) else (n, i, ok, rest)

/-- The loop of `parseIPv4`: `k` octets still to read, `p` the octets read. -/
def parseIPv4Loop : Nat → List Char → List Byte → Option (List Byte × List Char)
  | 0, s, p => some (p, s)
  | k + 1, s, p =>
    if s = [] then none  -- missing octets
    else
      let s' : Option (List Char) :=
        if p.length > 0 then (match s with | '.' :: t => some t | _ => none) else some s
      match s' with
      | none => none
      | some s =>
        match dtoi s with
        | (n, _, ok, rest) =>
          if ok = false ∨ n > 0xFF then none
          else parseIPv4Loop k rest (p ++ [toByte n])

/-- `parseIPv4`: a dotted decimal address, in 16-byte form; `nil` when malformed.  (Later
Go releases also reject an octet written with a leading zero; `IP.String` writes none.) -/
def parseIPv4 (s : List Char) : IP :=
  match parseIPv4Loop 4 s [] with
  | some ([a, b, c, d], []) => IPv4 a b c d
  | _ => []

/-- The main loop of `parseIPv6`: `ip` holds the bytes parsed so far (`i` is its length),
`ellipsis` the position of the `::` if one was seen.  `none` is the `return nil`;
otherwise the bytes, the ellipsis and the unread text on leaving the loop. -/
def parseIPv6Loop : Nat → List Char → List Byte → Option Nat →
    Option (List Byte × Option Nat × List Char)
  | 0, s, ip, ellipsis => some (ip, ellipsis, s)
  | fuel + 1, s, ip, ellipsis =>
    if ¬ ip.length < 16 then some (ip, ellipsis, s)
    else
      match xtoi s with
      | (n, _, ok, rest) =>
        if ok = false ∨ n > 0xFFFF then none
        else if rest.head? = some '.' then
          -- trailing IPv4
          if ellipsis = none ∧ ip.length ≠ 12 then none
          else if ip.length + 4 > 16 then none
          else
            match parseIPv4 s with
            | [] => none
            | ip4 => some (ip ++ ip4.drop 12, ellipsis, [])
        else
          let ip := ip ++ [toByte (n / 256), toByte n]
          match rest with
          | [] => some (ip, ellipsis, [])  -- stop at end of string
          | c :: t =>
            -- otherwise must be followed by colon and more
            if c ≠ ':' ∨ t = [] then none
            else if t.head? = some ':' then
              -- look for ellipsis
              if ellipsis.isSome then none
              else if t.tail = [] then some (ip, some ip.length, [])
              else parseIPv6Loop fuel t.tail ip (some ip.length)
            else parseIPv6Loop fuel t ip ellipsis

/-- `parseIPv6` without zone: an IPv6 literal as 16 bytes; `nil` when malformed. -/
def parseIPv6 (s : List Char) : IP :=
  -- might have leading ellipsis
  let start : List Char × Option Nat :=
    if s.take 2 = [':', ':'] then (s.drop 2, some 0) else (s, none)
  if start.2 = some 0 ∧ start.1 = [] then List.replicate 16 0  -- only the ellipsis
  else
    match parseIPv6Loop 8 start.1 [] start.2 with
    | none => []
    | some (ip, ellipsis, rest) =>
      if rest ≠ [] then []  -- must have used the entire string
      else if ip.length < 16 then
        match ellipsis with
        | none => []
        | some e => ip.take e ++ List.replicate (16 - ip.length) 0 ++ ip.drop e
      else if ellipsis.isSome then []  -- the ellipsis must stand for at least one group
      else ip

/-- `net.ParseIP`: the first `.` or `:` decides between the two address families; the
result is `nil` when the text is not a valid address. -/
def ParseIPChars (s : List Char) : List Char → IP
  | [] => []
  | c :: cs =>
    if c = '.' then parseIPv4 s
    else if c = ':' then parseIPv6 s
    else ParseIPChars s cs

def ParseIP (s : String) : IP := ParseIPChars s.data s.data

def maxUint64 : Nat := 2 ^ 64 - 1

/-- `strconv.FormatInt(i, 10)`. -/
def FormatInt (i : Int) : String :=
  if i < 0 then ⟨'-' :: uitoaLoop 65 i.natAbs []⟩ else ⟨uitoaLoop 65 i.toNat []⟩

/-- The digit loop of `strconv.ParseUint(s, 10, 64)`; the arithmetic is that of `uint64`.
A character that is not a decimal digit is a syntax error (a letter is a digit too large
for the base). -/
def parseUintLoop : List Char → Nat → Nat × Option NumErrKind
  | [], n => (n, none)
  | d :: ds, n =>
    if '0' ≤ d ∧ d ≤ '9' then
      let v := d.toNat - '0'.toNat
      if n ≥ maxUint64 / 10 + 1 then (maxUint64, some .ErrRange)  -- n*base overflows
      else
        let n := n * 10
        let n1 := (n + v) % 2 ^ 64
        if n1 < n ∨ n1 > maxUint64 then (maxUint64, some .ErrRange)  -- n+v overflows
        else parseUintLoop ds n1
    else (0, some .ErrSyntax)

/-- `strconv.ParseUint(s, 10, 64)`. -/
def ParseUint (s : List Char) : Nat × Option NumErrKind :=
  if s.length < 1 then (0, some .ErrSyntax) else parseUintLoop s 0

/-- The sign test of `strconv.ParseInt`: `neg` and the text after the sign. -/
def pickSign : List Char → Bool × List Char
  | '+' :: t => (false, t)
  | '-' :: t => (true, t)
  | t => (false, t)

/-- `strconv.ParseInt(s, 10, 64)`. -/
def ParseInt (s0 : String) : Int × Option Error :=
  if s0.data.length = 0 then (0, some (.num "ParseInt" s0 .ErrSyntax))
  else
    -- pick off the leading sign
    let neg := (pickSign s0.data).1
    let s := (pickSign s0.data).2
    -- convert unsigned and check range
    match ParseUint s with
    | (_, some .ErrSyntax) => (0, some (.num "ParseInt" s0 .ErrSyntax))
    | (un, _) =>
      let cutoff : Nat := 2 ^ 63
      if neg = false ∧ un ≥ cutoff then ((cutoff : Int) - 1, some (.num "ParseInt" s0 .ErrRange))
      else if neg = true ∧ un > cutoff then (-(cutoff : Int), some (.num "ParseInt" s0 .ErrRange))
      else (if neg then -(un : Int) else (un : Int), none)

/-! ## The store (`backend/etcd/backend.go`) -/

def ETCDPrefix : String := "/etcd-cni/networks/"

/-- The `Store` struct; its `EtcdClient` field is the `Client` every method is given. -/
structure Store where
  EtcdKeyPrefix : String
deriving DecidableEq

/-- `initStore`: registers the pool; `none` stands for the `panic(err)`. -/
def initStore (o : Oracle) (c : Client) (name network : String) : Option String × Client :=
  let key := ETCDPrefix ++ name
  match c.Put o key network with
  | (.error _, c) => (none, c)
  | (.ok _, c) => (some key, c)

/-- `Store.Reserve`. -/
def Store.Reserve (s : Store) (o : Oracle) (c : Client) (id : String) (ip : IP)
    (rangeID : String) : (Bool × Option Error) × Client :=
  let usedIPPrefix := s.EtcdKeyPrefix ++ "/used/"
  let key := usedIPPrefix ++ ip.String
  match c.Get o key with
  | (.error err, c) => ((false, some err), c)
  | (.ok resp, c) =>
    if resp.Count > 0 then ((false, none), c)
    else
      let value := id
      match c.Put o key value with
      | (.error err, c) => ((false, some err), c)
      | (.ok _, c) =>
        let key := s.EtcdKeyPrefix ++ "/lastReserved/" ++ rangeID
        match c.Put o key ip.String with
        | (.error err, c) => ((false, some err), c)
        | (.ok _, c) => ((true, none), c)

/-- `Store.LastReservedIP`. -/
def Store.LastReservedIP (s : Store) (o : Oracle) (c : Client) (rangeID : String) :
    (IP × Option Error) × Client :=
  let key := s.EtcdKeyPrefix ++ "/lastReserved/" ++ rangeID
  match c.Get o key with
  | (.error err, c) => (([], some err), c)
  | (.ok resp, c) =>
    if resp.Count = 0 then (([], some (.new "Can not find last reserved ip")), c)
    else
      match resp.Kvs with
      | kv :: _ =>
        let data := kv.Value
        ((ParseIP data, none), c)
      | [] => (([], some (.panic "index out of range")), c)

/-- `Store.Release`. -/
def Store.Release (s : Store) (o : Oracle) (c : Client) (ip : IP) : Option Error × Client :=
  let key := s.EtcdKeyPrefix ++ "/used/" ++ ip.String
  match c.Delete o key with
  | (.error err, c) => (some err, c)
  | (.ok _, c) => (none, c)

/-- The `for _, kv := range resp.Kvs` loop of `ReleaseByID`. -/
def Store.releaseLoop (o : Oracle) (id : String) : List KeyValue → Client → Option Error × Client
  | [], c => (none, c)
  | kv :: kvs, c =>
    if kv.Value = id then
      match c.Delete o kv.Key with
      | (.error err, c) => (some err, c)
      | (.ok _, c) => Store.releaseLoop o id kvs c
    else Store.releaseLoop o id kvs c

/-- `Store.ReleaseByID`. -/
def Store.ReleaseByID (s : Store) (o : Oracle) (c : Client) (id : String) :
    Option Error × Client :=
  let key := s.EtcdKeyPrefix ++ "/used/"
  match c.GetPrefix o key with
  | (.error err, c) => (some err, c)
  | (.ok resp, c) =>
    if resp.Count > 0 then Store.releaseLoop o id resp.Kvs c
    else (none, c)

/-- `Store.Close`. -/
def Store.Close (_ : Store) (c : Client) : Option Error × Client := (none, c)

/-- One pass through the body of the `for` loop of `Lock`, up to the test of
`txnResp.Succeeded`: grant a lease, commit the transaction.  `.error err` is the
`return err`, `.ok b` the value of `txnResp.Succeeded`. -/
def Store.lockAttempt (o : Oracle) (key : String) (leaseTTL : Int) (c : Client) :
    Except Error Bool × Client :=
  match c.Grant o leaseTTL with
  | (.error err, c) => (.error err, c)
  | (.ok leaseId, c) =>
    match c.Txn o key 0 (.put key (FormatInt leaseId) leaseId) (.get key) with
    | (.error err, c) => (.error err, c)
    | (.ok txnResp, c) => (.ok txnResp.Succeeded, c)

/-- The `time.Sleep(time.Second * 2)` of pass `i`: the program does nothing, the rest of
the world acts on the server. -/
def Store.sleep (o : Oracle) (i : Nat) (c : Client) : Client :=
  ⟨o.interfere i c.server, c.log⟩

/-- The `for i := 0; i < retryTimes; i++` loop of `Lock`: the first argument is
`retryTimes - i`.  `.error err` is the `return err` inside the loop, `.ok getLock` the
flag on leaving it. -/
def Store.lockLoop (o : Oracle) (key : String) (leaseTTL : Int) :
    Nat → Nat → Client → Except Error Bool × Client
  | 0, _, c => (.ok false, c)
  | left + 1, i, c =>
    match Store.lockAttempt o key leaseTTL c with
    | (.error err, c) => (.error err, c)
    | (.ok true, c) => (.ok true, c)
    | (.ok false, c) => Store.lockLoop o key leaseTTL left (i + 1) (Store.sleep o i c)

/-- `Store.Lock`. -/
def Store.Lock (s : Store) (o : Oracle) (c : Client) : Option Error × Client :=
  let key := s.EtcdKeyPrefix ++ "/lock"
  let retryTimes := 20
  let leaseTTL := 10
  match Store.lockLoop o key leaseTTL retryTimes 0 c with
  | (.error err, c) => (some err, c)
  | (.ok getLock, c) =>
    if getLock then (none, c) else (some (.new "Can not get lock"), c)

/-- `Store.Unlock`; the result of `lease.Revoke` is dropped. -/
def Store.Unlock (s : Store) (o : Oracle) (c : Client) : Option Error × Client :=
  let key := s.EtcdKeyPrefix ++ "/lock"
  match c.Get o key with
  | (.error err, c) => (some err, c)
  | (.ok resp, c) =>
    if resp.Count > 0 then
      match resp.Kvs with
      | kv :: _ =>
        let value := kv.Value
        match ParseInt value with
        | (_, some err) => (some err, c)
        | (leaseId, none) => (none, (c.Revoke o leaseId).2)
      | [] => (some (.panic "index out of range"), c)
    else (none, c)

/-! ## Vocabulary of the statements -/

/-- No service call fails. -/
def Oracle.FaultFree (o : Oracle) : Prop := ∀ n, o.fault n = none

/-- The key of the reservation record of an address. -/
def Store.usedKey (s : Store) (ip : IP) : String := s.EtcdKeyPrefix ++ "/used/" ++ ip.String

/-- The key of the last-reserved pointer of a range. -/
def Store.lastReservedKey (s : Store) (rangeID : String) : String :=
  s.EtcdKeyPrefix ++ "/lastReserved/" ++ rangeID

/-- The key of the lock record. -/
def Store.lockKey (s : Store) : String := s.EtcdKeyPrefix ++ "/lock"

/-- The value stored under a key, if the key exists. -/
def Server.value? (s : Server) (key : String) : Option String :=
  (s.kvs.lookup key).map Entry.value

/-- The lease attached to a key, if the key exists. -/
def Server.lease? (s : Server) (key : String) : Option Int :=
  (s.kvs.lookup key).map Entry.lease

/-- The server after the deletion of each of the keys, in order. -/
def Server.deleteAll (s : Server) (keys : List String) : Server :=
  keys.foldl Server.delete s

/-- The records that `ReleaseByID(id)` is to delete, in the order of the scan: those
under `<prefix>/used/` whose value is `id`. -/
def Store.matching (s : Store) (c : Client) (id : String) : List KeyValue :=
  (c.server.rangePrefix (s.EtcdKeyPrefix ++ "/used/")).filter fun kv => kv.Value = id

/-- A call of one of the reservation operations. -/
inductive Action where
  | reserve (id : String) (ip : IP) (rangeID : String)
  | release (ip : IP)
  | releaseByID (id : String)
deriving DecidableEq

/-- What a call returned. -/
inductive Outcome where
  | reserved (claimed : Bool) (err : Option Error)
  | released (err : Option Error)
deriving DecidableEq

/-- One call, run to completion. -/
def Store.step (s : Store) (o : Oracle) (c : Client) : Action → Outcome × Client
  | .reserve id ip rangeID =>
    ((fun r : Bool × Option Error => Outcome.reserved r.1 r.2) (s.Reserve o c id ip rangeID).1,
      (s.Reserve o c id ip rangeID).2)
  | .release ip => (.released (s.Release o c ip).1, (s.Release o c ip).2)
  | .releaseByID id => (.released (s.ReleaseByID o c id).1, (s.ReleaseByID o c id).2)

/-- A sequential execution: the calls run one after the other, none interleaved. -/
def Store.run (s : Store) (o : Oracle) : List Action → Client → List Outcome × Client
  | [], c => ([], c)
  | a :: as, c =>
    ((s.step o c a).1 :: (Store.run s o as (s.step o c a).2).1,
      (Store.run s o as (s.step o c a).2).2)

/-- The call is a `Reserve` for the address `a` (for the record `used/<a>`). -/
def Action.reservesAddr (a : IP) : Action → Bool
  | .reserve _ b _ => decide (b.String = a.String)
  | _ => false

/-- The call releases the record `used/<a>` held by `owner`: it is `Release` of that
address or `ReleaseByID` of that owner. -/
def Action.releasesAddr (a : IP) (owner : String) : Action → Bool
  | .release b => decide (b.String = a.String)
  | .releaseByID id => decide (id = owner)
  | .reserve _ _ _ => false

/-- The client as pass `i + k` of the loop of `Lock` finds it, when pass `i` found `c` and
the passes `i, …, i + k - 1` each ended in the sleep: `k` times an attempt followed by the
sleep. -/
def Store.attemptState (o : Oracle) (key : String) (leaseTTL : Int) :
    Nat → Nat → Client → Client
  | _, 0, c => c
  | i, k + 1, c =>
    Store.attemptState o key leaseTTL (i + 1) k
      (Store.sleep o i (Store.lockAttempt o key leaseTTL c).2)

/-- The client as attempt number `k` (from 0) of `Lock` finds it, when `Lock` was called
on `c` and no earlier attempt acquired the lock or failed. -/
def Store.beforeAttempt (s : Store) (o : Oracle) (k : Nat) (c : Client) : Client :=
  Store.attemptState o s.lockKey 10 0 k c

/-- The two service calls of an attempt of `Lock` that is granted the lease `L`. -/
def Store.attemptCalls (s : Store) (L : Int) : List Call :=
  [.grant 10, .txn s.lockKey 0 (.put s.lockKey (FormatInt L) L) (.get s.lockKey)]

/-- The service calls of `n` attempts of `Lock` in a row, the first of them issued when
`start` calls were already logged: attempt `j` is granted the lease the server assigns to
call number `start + 2 * j`. -/
def Store.attemptsLog (s : Store) (o : Oracle) : Nat → Nat → List Call
  | 0, _ => []
  | n + 1, start => s.attemptCalls (o.leaseID start) ++ Store.attemptsLog s o n (start + 2)

/-- The call is one an attempt of `Lock` issues: the grant of a lease with TTL 10, or the
conditional transaction on the lock key for some lease. -/
def Store.IsAttemptCall (s : Store) (call : Call) : Prop :=
  call = .grant 10 ∨
    ∃ L : Int, call = .txn s.lockKey 0 (.put s.lockKey (FormatInt L) L) (.get s.lockKey)

/-- The lease identifiers the server hands out are `int64` values other than
`clientv3.NoLease` (0), which etcd never assigns to a lease. -/
def Oracle.GrantsLeases (o : Oracle) : Prop :=
  ∀ n, o.leaseID n ≠ 0 ∧ -(2 : Int) ^ 63 ≤ o.leaseID n ∧ o.leaseID n < (2 : Int) ^ 63

/-- The text of groups that each follow a colon: `:g1:g2…`. -/
def sepGroups : List Nat → List Char
  | [] => []
  | g :: gs => ':' :: (appendHex g ++ sepGroups gs)

/-- The text of groups separated by colons: `g1:g2:…`. -/
def joinGroups : List Nat → List Char
  | [] => []
  | g :: gs => appendHex g ++ sepGroups gs

/-- The two bytes of each group, in order. -/
def groupBytes : List Nat → List Byte
  | [] => []
  | g :: gs => toByte (g / 256) :: toByte g :: groupBytes gs

/-- The pair is no run (`(-1, -1)`) or the bounds `(a, a + n)` of `n ≥ 1` zero groups of
`G`. -/
def ZeroRunAt (G : List Nat) (e : Int × Int) : Prop :=
  e = (-1, -1) ∨
    ∃ a n : Nat, e = ((a : Int), ((a + n : Nat) : Int)) ∧ 1 ≤ n ∧ a + n ≤ G.length ∧
      (G.drop a).take n = List.replicate n 0

/-! ## Concrete stores used to exercise the statements -/

/-- The store of the pool `net1`. -/
def net1 : Store := ⟨"/etcd-cni/networks/net1"⟩

/-- A server that holds nothing yet. -/
def emptyServer : Server := ⟨∅, [], 1⟩

/-- A client that has issued no call, on the empty server. -/
def freshClient : Client := ⟨emptyServer, []⟩

/-- A fault-free oracle without interference; the lease granted by call `n` is `7000 + n`. -/
def calm : Oracle := Oracle.quiet fun n => 7000 + n

/-- The address `10.0.0.5` as a 4-byte `net.IP`. -/
def ip5 : IP := [10, 0, 0, 5]

/-- The address `10.0.0.9` as a 4-byte `net.IP`. -/
def ip9 : IP := [10, 0, 0, 9]

/-- The address `10.0.0.7` as a 4-byte `net.IP`. -/
def ip7 : IP := [10, 0, 0, 7]

/-- The client after `containerA` reserved `10.0.0.5`, `containerB` reserved `10.0.0.7` and
`containerA` reserved `10.0.0.9`, all in `range0`. -/
def threeHeld : Client :=
  (net1.Reserve calm
    (net1.Reserve calm
      (net1.Reserve calm freshClient "containerA" ip5 "range0").2
      "containerB" ip7 "range0").2
    "containerA" ip9 "range0").2

/-- An oracle without interference whose only fault is that call number `n` fails with
`e`. -/
def failAt (n : Nat) (e : Error) : Oracle :=
  ⟨fun m => if m = n then some e else none, fun m => 7000 + m, fun _ s => s⟩

/-- The error of a service call that timed out. -/
def timedOut : Error := .rpc "context deadline exceeded"

/-- The client after the pool `net1` was registered on the empty server. -/
def registered : Client := (initStore calm freshClient "net1" "10.0.0.2-10.0.0.254").2

/-- The client after `Lock` succeeded on the fresh client: the lock of `net1` is held. -/
def locked : Client := (net1.Lock calm freshClient).2

/-- A fault-free oracle under which the holder's lock record disappears (by `Unlock` or by
expiry of its lease) during sleep number `k` of the `Lock` in progress. -/
def freedDuring (k : Nat) : Oracle :=
  ⟨fun _ => none, fun n => 7000 + n,
    fun i srv => if i = k then srv.delete net1.lockKey else srv⟩

/-- A fault-free oracle without interference that hands out negative lease identifiers. -/
def negative : Oracle := Oracle.quiet fun n => -(9000 + (n % 100 : Nat) : Int)

/-- A client on a server whose lock key holds text that is not a number. -/
def garbled : Client := ⟨emptyServer.put net1.lockKey "not-a-lease" 0, []⟩

/-- A client on a server whose last-reserved pointer of `range0` holds text that is not an
address. -/
def malformed : Client := ⟨emptyServer.put (net1.lastReservedKey "range0") "garbage" 0, []⟩

/-- A `net.IP` of three bytes: a value of the type that is no address. -/
def threeBytes : IP := [1, 2, 3]

/-- The IPv6 address `2001:db8::1`. -/
def ip6 : IP := [0x20, 0x01, 0x0d, 0xb8, 0, 0, 0, 0, 0, 0, 0, 0, 0, 0, 0, 1]

/-! ## The server operations, key by key -/

theorem lookup_put_self (s : Server) (key value : String) (lease : Int) :
    ∃ cr, (s.put key value lease).kvs.lookup key = some ⟨value, cr, lease⟩ := by
  simp only [Server.put]
  exact ⟨_, AList.lookup_insert _⟩

theorem lookup_put_ne (s : Server) (key value : String) (lease : Int) {k : String}
    (h : k ≠ key) : (s.put key value lease).kvs.lookup k = s.kvs.lookup k := by
  simp only [Server.put]
  exact AList.lookup_insert_ne h

theorem leases_put (s : Server) (key value : String) (lease : Int) :
    (s.put key value lease).leases = s.leases := rfl

theorem lookup_delete (s : Server) (key k : String) :
    (s.delete key).kvs.lookup k = if k = key then none else s.kvs.lookup k := by
  unfold Server.delete
  cases h : s.kvs.lookup key with
  | none =>
    by_cases hk : k = key
    · subst hk; simp [h]
    · simp [hk]
  | some e =>
    by_cases hk : k = key
    · subst hk; simp [AList.lookup_erase]
    · simp [hk, AList.lookup_erase_ne hk]

theorem leases_delete (s : Server) (key : String) : (s.delete key).leases = s.leases := by
  unfold Server.delete
  cases s.kvs.lookup key <;> rfl

theorem lookup_dropLease (id : Int) (k : String) (ks : List String) :
    ∀ kvs : KeySpace, (Server.dropLease kvs id ks).lookup k =
      if k ∈ ks ∧ (kvs.lookup k).map Entry.lease = some id then none else kvs.lookup k := by
  induction ks with
  | nil => intro kvs; simp [Server.dropLease]
  | cons k0 ks ih =>
    intro kvs
    simp only [Server.dropLease]
    cases h0 : kvs.lookup k0 with
    | none =>
      simp only [ih]
      by_cases hk : k = k0
      · subst hk; simp [h0]
      · simp [hk]
    | some e =>
      by_cases hl : e.lease = id
      · simp only [hl, if_true, ih]
        by_cases hk : k = k0
        · subst hk; simp [AList.lookup_erase, h0, hl]
        · simp [hk, AList.lookup_erase_ne hk]
      · simp only [hl, if_false, ih]
        by_cases hk : k = k0
        · subst hk; simp [h0, hl]
        · simp [hk]

/-! ## The key layout -/

theorem data_used : "/used/".data = ['/', 'u', 's', 'e', 'd', '/'] := rfl

theorem data_lastReserved :
    "/lastReserved/".data =
      ['/', 'l', 'a', 's', 't', 'R', 'e', 's', 'e', 'r', 'v', 'e', 'd', '/'] := rfl

theorem data_lock : "/lock".data = ['/', 'l', 'o', 'c', 'k'] := rfl

theorem usedKey_eq_iff (s : Store) (a b : IP) :
    s.usedKey a = s.usedKey b ↔ a.String = b.String := by
  simp [Store.usedKey, String.ext_iff]

theorem usedKey_ne_lastReservedKey (s : Store) (ip : IP) (rangeID : String) :
    s.usedKey ip ≠ s.lastReservedKey rangeID := by
  simp [Store.usedKey, Store.lastReservedKey, String.ext_iff, data_used, data_lastReserved]

theorem usedKey_ne_lockKey (s : Store) (ip : IP) : s.usedKey ip ≠ s.lockKey := by
  simp [Store.usedKey, Store.lockKey, String.ext_iff, data_used, data_lock]

theorem usedKey_ne_prefix (s : Store) (ip : IP) : s.usedKey ip ≠ s.EtcdKeyPrefix := by
  simp [Store.usedKey, String.ext_iff, data_used]

theorem hasPrefix_usedKey (s : Store) (ip : IP) :
    hasPrefix (s.usedKey ip) (s.EtcdKeyPrefix ++ "/used/") = true := by
  simp [hasPrefix, Store.usedKey, List.isPrefixOf_iff_prefix]

theorem hasPrefix_lastReservedKey (s : Store) (rangeID : String) :
    hasPrefix (s.lastReservedKey rangeID) (s.EtcdKeyPrefix ++ "/used/") = false := by
  rw [← Bool.not_eq_true]
  simp [hasPrefix, Store.lastReservedKey, List.isPrefixOf_iff_prefix, List.prefix_append_right_inj,
    data_used, data_lastReserved, List.cons_prefix_cons]

theorem hasPrefix_lockKey (s : Store) :
    hasPrefix s.lockKey (s.EtcdKeyPrefix ++ "/used/") = false := by
  rw [← Bool.not_eq_true]
  simp [hasPrefix, Store.lockKey, List.isPrefixOf_iff_prefix, List.prefix_append_right_inj,
    data_used, data_lock, List.cons_prefix_cons]

theorem hasPrefix_prefix (s : Store) :
    hasPrefix s.EtcdKeyPrefix (s.EtcdKeyPrefix ++ "/used/") = false := by
  rw [← Bool.not_eq_true]
  have h : s.EtcdKeyPrefix.data = s.EtcdKeyPrefix.data ++ [] := by simp
  rw [hasPrefix, List.isPrefixOf_iff_prefix, String.data_append, h, List.append_assoc,
    List.prefix_append_right_inj]
  simp [data_used]

/-! ## Client calls that do not fail -/

theorem Get_ok {o : Oracle} (c : Client) (key : String) (h : o.fault c.log.length = none) :
    c.Get o key =
      (.ok ⟨c.server.range key, (c.server.range key).length⟩, c.logged (.get key) c.server) := by
  simp [Client.Get, h]

theorem GetPrefix_ok {o : Oracle} (c : Client) (key : String) (h : o.fault c.log.length = none) :
    c.GetPrefix o key =
      (.ok ⟨c.server.rangePrefix key, (c.server.rangePrefix key).length⟩,
        c.logged (.getPrefix key) c.server) := by
  simp [Client.GetPrefix, h]

theorem Put_ok {o : Oracle} (c : Client) (key value : String) (h : o.fault c.log.length = none) :
    c.Put o key value = (.ok (), c.logged (.put key value) (c.server.put key value 0)) := by
  simp [Client.Put, h]

theorem Delete_ok {o : Oracle} (c : Client) (key : String) (h : o.fault c.log.length = none) :
    c.Delete o key = (.ok (), c.logged (.delete key) (c.server.delete key)) := by
  simp [Client.Delete, h]

theorem range_length (s : Server) (key : String) :
    (s.range key).length = if s.kvs.lookup key = none then 0 else 1 := by
  unfold Server.range
  cases s.kvs.lookup key <;> simp

theorem Reserve_taken {s : Store} {o : Oracle} (hff : o.FaultFree) (c : Client) (id : String)
    (ip : IP) (rangeID : String) (h : c.server.kvs.lookup (s.usedKey ip) ≠ none) :
    s.Reserve o c id ip rangeID = ((false, none), c.logged (.get (s.usedKey ip)) c.server) := by
  have hk : s.EtcdKeyPrefix ++ "/used/" ++ ip.String = s.usedKey ip := rfl
  simp only [Store.Reserve, hk, Get_ok c _ (hff _), range_length, if_neg h]
  simp

theorem Reserve_free {s : Store} {o : Oracle} (hff : o.FaultFree) (c : Client) (id : String)
    (ip : IP) (rangeID : String) (h : c.server.kvs.lookup (s.usedKey ip) = none) :
    s.Reserve o c id ip rangeID =
      ((true, none),
        ⟨((c.server.put (s.usedKey ip) id 0).put (s.lastReservedKey rangeID) ip.String 0),
          c.log ++ [.get (s.usedKey ip), .put (s.usedKey ip) id,
            .put (s.lastReservedKey rangeID) ip.String]⟩) := by
  have hk : s.EtcdKeyPrefix ++ "/used/" ++ ip.String = s.usedKey ip := rfl
  have hl : s.EtcdKeyPrefix ++ "/lastReserved/" ++ rangeID = s.lastReservedKey rangeID := rfl
  simp only [Store.Reserve, hk, hl, Get_ok c _ (hff _), range_length, if_pos h]
  simp only [Nat.lt_irrefl, if_false, Put_ok _ _ _ (hff _)]
  simp [Client.logged]

/-! ## Reserve -/

/-- C3: on a fault-free store, `Reserve` on a taken address returns `(false, nil)` and
leaves the server as it was; on a free address it returns `(true, nil)`, the record
`used/<ip>` then holds the owner, `lastReserved/<rangeID>` holds the address text, these
are two different keys, and every other key and the leases are as before. -/
theorem Reserve_postcondition (s : Store) (o : Oracle) (hff : o.FaultFree) (c : Client)
    (id : String) (ip : IP) (rangeID : String) :
    (c.server.kvs.lookup (s.usedKey ip) ≠ none →
      (s.Reserve o c id ip rangeID).1 = (false, none) ∧
      (s.Reserve o c id ip rangeID).2.server = c.server) ∧
    (c.server.kvs.lookup (s.usedKey ip) = none →
      (s.Reserve o c id ip rangeID).1 = (true, none) ∧
      (s.Reserve o c id ip rangeID).2.server.value? (s.usedKey ip) = some id ∧
      (s.Reserve o c id ip rangeID).2.server.value? (s.lastReservedKey rangeID)
        = some ip.String ∧
      s.usedKey ip ≠ s.lastReservedKey rangeID ∧
      (∀ k, k ≠ s.usedKey ip → k ≠ s.lastReservedKey rangeID →
        (s.Reserve o c id ip rangeID).2.server.kvs.lookup k = c.server.kvs.lookup k) ∧
      (s.Reserve o c id ip rangeID).2.server.leases = c.server.leases) := by
  refine ⟨fun h => ?_, fun h => ?_⟩
  · rw [Reserve_taken hff c id ip rangeID h]
    exact ⟨rfl, rfl⟩
  · rw [Reserve_free hff c id ip rangeID h]
    refine ⟨rfl, ?_, ?_, usedKey_ne_lastReservedKey s ip rangeID, ?_, rfl⟩
    · obtain ⟨cr, hcr⟩ := lookup_put_self c.server (s.usedKey ip) id 0
      simp [Server.value?, lookup_put_ne _ _ _ _ (usedKey_ne_lastReservedKey s ip rangeID), hcr]
    · obtain ⟨cr, hcr⟩ := lookup_put_self (c.server.put (s.usedKey ip) id 0)
        (s.lastReservedKey rangeID) ip.String 0
      simp [Server.value?, hcr]
    · intro k hk1 hk2
      simp [lookup_put_ne _ _ _ _ hk1, lookup_put_ne _ _ _ _ hk2]

theorem Reserve_postcondition_witness :
    calm.FaultFree ∧
    freshClient.server.kvs.lookup (net1.usedKey ip5) = none ∧
    (net1.Reserve calm freshClient "containerA" ip5 "range0").1 = (true, none) ∧
    (net1.Reserve calm freshClient "containerA" ip5 "range0").2.server.value?
      "/etcd-cni/networks/net1/used/10.0.0.5" = some "containerA" :=
  ⟨fun _ => rfl, by decide,
    ((Reserve_postcondition net1 calm (fun _ => rfl) freshClient "containerA" ip5 "range0").2
      (by decide)).1,
    ((Reserve_postcondition net1 calm (fun _ => rfl) freshClient "containerA" ip5 "range0").2
      (by decide)).2.1⟩

/-! ## ReleaseByID -/

theorem lookup_deleteAll (keys : List String) (k : String) :
    ∀ s : Server, (s.deleteAll keys).kvs.lookup k =
      if k ∈ keys then none else s.kvs.lookup k := by
  induction keys with
  | nil => intro s; simp [Server.deleteAll]
  | cons key keys ih =>
    intro s
    have h := ih (s.delete key)
    simp only [Server.deleteAll, List.foldl_cons] at h ⊢
    rw [h, lookup_delete]
    by_cases h1 : k = key
    · simp [h1]
    · by_cases h2 : k ∈ keys <;> simp [h1, h2]

theorem leases_deleteAll (keys : List String) :
    ∀ s : Server, (s.deleteAll keys).leases = s.leases := by
  induction keys with
  | nil => intro s; rfl
  | cons key keys ih =>
    intro s
    have h := ih (s.delete key)
    simp only [Server.deleteAll, List.foldl_cons] at h ⊢
    rw [h, leases_delete]

/-- The loop when none of its deletes fails. -/
theorem releaseLoop_ok (o : Oracle) (id : String) :
    ∀ (kvs : List KeyValue) (c : Client),
      (∀ j, j < (kvs.filter fun kv => kv.Value = id).length →
        o.fault (c.log.length + j) = none) →
      Store.releaseLoop o id kvs c =
        (none, ⟨c.server.deleteAll ((kvs.filter fun kv => kv.Value = id).map KeyValue.Key),
          c.log ++ (kvs.filter fun kv => kv.Value = id).map fun kv => Call.delete kv.Key⟩) := by
  intro kvs
  induction kvs with
  | nil => intro c _; simp [Store.releaseLoop, Server.deleteAll]
  | cons kv kvs ih =>
    intro c h
    by_cases hv : kv.Value = id
    · simp only [List.filter_cons, hv, decide_True, if_true, List.length_cons] at h
      have h0 : o.fault c.log.length = none := by simpa using h 0 (Nat.succ_pos _)
      simp only [Store.releaseLoop, hv, if_true, Delete_ok c _ h0]
      rw [ih]
      · simp [Client.logged, Server.deleteAll, hv]
      · intro j hj
        have := h (j + 1) (Nat.succ_lt_succ hj)
        simpa [Client.logged, Nat.add_assoc, Nat.add_comm 1 j] using this
    · simp only [List.filter_cons, hv, decide_False] at h
      simp only [Store.releaseLoop, hv, if_false]
      rw [ih c (by simpa using h)]
      simp [hv]

/-- The loop when the delete of the matching record number `k` (from 0) is the first to
fail. -/
theorem releaseLoop_fail (o : Oracle) (id : String) (e : Error) :
    ∀ (kvs : List KeyValue) (c : Client) (k : Nat),
      k < (kvs.filter fun kv => kv.Value = id).length →
      (∀ j, j < k → o.fault (c.log.length + j) = none) →
      o.fault (c.log.length + k) = some e →
      Store.releaseLoop o id kvs c =
        (some e,
          ⟨c.server.deleteAll
              (((kvs.filter fun kv => kv.Value = id).take k).map KeyValue.Key),
            c.log ++ ((kvs.filter fun kv => kv.Value = id).take (k + 1)).map
              fun kv => Call.delete kv.Key⟩) := by
  intro kvs
  induction kvs with
  | nil => intro c k hk; simp at hk
  | cons kv kvs ih =>
    intro c k hk hnone hsome
    by_cases hv : kv.Value = id
    · simp only [List.filter_cons, hv, decide_True, if_true, List.length_cons] at hk
      cases k with
      | zero =>
        have h0 : o.fault c.log.length = some e := by simpa using hsome
        simp [Store.releaseLoop, hv, Client.Delete, h0, Client.logged, Server.deleteAll]
      | succ k =>
        have h0 : o.fault c.log.length = none := by simpa using hnone 0 (Nat.succ_pos _)
        simp only [Store.releaseLoop, hv, if_true, Delete_ok c _ h0]
        rw [ih _ k (Nat.lt_of_succ_lt_succ hk)]
        · simp [Client.logged, Server.deleteAll, hv]
        · intro j hj
          have := hnone (j + 1) (Nat.succ_lt_succ hj)
          simpa [Client.logged, Nat.add_assoc, Nat.add_comm 1 j] using this
        · simpa [Client.logged, Nat.add_assoc, Nat.add_comm 1 k] using hsome
    · simp only [List.filter_cons, hv, decide_False] at hk
      simp only [Store.releaseLoop, hv, if_false]
      rw [ih c k (by simpa using hk) hnone hsome]
      simp [hv]

/-- After a scan that did not fail, `ReleaseByID` is its loop over the scanned records. -/
theorem ReleaseByID_eq_loop (s : Store) (o : Oracle) (c : Client) (id : String)
    (h : o.fault c.log.length = none) :
    s.ReleaseByID o c id =
      Store.releaseLoop o id (c.server.rangePrefix (s.EtcdKeyPrefix ++ "/used/"))
        (c.logged (.getPrefix (s.EtcdKeyPrefix ++ "/used/")) c.server) := by
  simp only [Store.ReleaseByID, GetPrefix_ok c _ h]
  cases hr : c.server.rangePrefix (s.EtcdKeyPrefix ++ "/used/") with
  | nil => simp [Store.releaseLoop]
  | cons kv kvs => simp

theorem mem_matching_iff (s : Store) (c : Client) (id : String) (kv : KeyValue) :
    kv ∈ s.matching c id ↔
      ∃ e, c.server.kvs.lookup kv.Key = some e ∧ kv = ⟨kv.Key, e.value, e.createRevision, e.lease⟩
        ∧ hasPrefix kv.Key (s.EtcdKeyPrefix ++ "/used/") = true ∧ e.value = id := by
  simp only [Store.matching, Server.rangePrefix, List.mem_filter, List.mem_map,
    List.mem_insertionSort, decide_eq_true_eq]
  constructor
  · rintro ⟨⟨⟨k, e⟩, ⟨hmem, hp⟩, rfl⟩, hv⟩
    exact ⟨e, AList.mem_lookup_iff.2 hmem, rfl, hp, hv⟩
  · rintro ⟨e, hl, hkv, hp, hv⟩
    refine ⟨⟨⟨kv.Key, e⟩, ⟨AList.mem_lookup_iff.1 hl, hp⟩, ?_⟩, ?_⟩
    · rw [hkv]; rfl
    · rw [hkv]; exact hv

theorem mem_matching_keys (s : Store) (c : Client) (id : String) (k : String) :
    k ∈ (s.matching c id).map KeyValue.Key ↔
      hasPrefix k (s.EtcdKeyPrefix ++ "/used/") = true ∧ c.server.value? k = some id := by
  simp only [List.mem_map, mem_matching_iff, Server.value?]
  constructor
  · rintro ⟨kv, ⟨e, hl, _, hp, hv⟩, rfl⟩
    exact ⟨hp, by simp [hl, hv]⟩
  · rintro ⟨hp, hv⟩
    cases hl : c.server.kvs.lookup k with
    | none => simp [hl] at hv
    | some e =>
      simp only [hl, Option.map_some', Option.some.injEq] at hv
      exact ⟨⟨k, e.value, e.createRevision, e.lease⟩, ⟨e, hl, rfl, hp, hv⟩, rfl⟩

theorem nodup_matching_keys (s : Store) (c : Client) (id : String) :
    ((s.matching c id).map KeyValue.Key).Nodup := by
  have hsub : ((s.matching c id).map KeyValue.Key).Sublist
      ((c.server.rangePrefix (s.EtcdKeyPrefix ++ "/used/")).map KeyValue.Key) :=
    (List.filter_sublist _).map _
  have hperm : ((c.server.rangePrefix (s.EtcdKeyPrefix ++ "/used/")).map KeyValue.Key).Perm
      ((c.server.kvs.entries.filter fun e =>
        hasPrefix e.1 (s.EtcdKeyPrefix ++ "/used/")).map Sigma.fst) := by
    have h1 : (c.server.rangePrefix (s.EtcdKeyPrefix ++ "/used/")).map KeyValue.Key =
        ((c.server.kvs.entries.filter fun e =>
          hasPrefix e.1 (s.EtcdKeyPrefix ++ "/used/")).insertionSort keyLE).map Sigma.fst := by
      simp only [Server.rangePrefix, List.map_map]
      rfl
    rw [h1]
    exact (List.perm_insertionSort keyLE _).map _
  have hnd : ((c.server.kvs.entries.filter fun e =>
      hasPrefix e.1 (s.EtcdKeyPrefix ++ "/used/")).map Sigma.fst).Nodup :=
    c.server.kvs.nodupKeys.sublist (List.filter_sublist c.server.kvs.entries)
  exact (hperm.nodup_iff.2 hnd).sublist hsub

theorem charsLE_total : ∀ a b : List Char, charsLE a b = true ∨ charsLE b a = true := by
  intro a
  induction a with
  | nil => intro b; exact Or.inl (by cases b <;> rfl)
  | cons x xs ih =>
    intro b
    cases b with
    | nil => exact Or.inr rfl
    | cons y ys =>
      simp only [charsLE]
      by_cases h1 : x.toNat < y.toNat
      · exact Or.inl (by simp [h1])
      · by_cases h2 : y.toNat < x.toNat
        · exact Or.inr (by simp [h2])
        · simpa [h1, h2] using ih ys

theorem charsLE_trans :
    ∀ a b c : List Char, charsLE a b = true → charsLE b c = true → charsLE a c = true := by
  intro a
  induction a with
  | nil => intro b c _ _; cases c <;> rfl
  | cons x xs ih =>
    intro b c hab hbc
    cases b with
    | nil => simp [charsLE] at hab
    | cons y ys =>
      cases c with
      | nil => simp [charsLE] at hbc
      | cons z zs =>
        simp only [charsLE] at hab hbc ⊢
        by_cases h1 : x.toNat < y.toNat
        · by_cases h2 : y.toNat < z.toNat
          · simp [show x.toNat < z.toNat by omega]
          · by_cases h3 : z.toNat < y.toNat
            · simp [h2, h3] at hbc
            · simp [show x.toNat < z.toNat by omega]
        · by_cases h1' : y.toNat < x.toNat
          · simp [h1, h1'] at hab
          · simp only [h1, h1', if_false] at hab
            by_cases h2 : y.toNat < z.toNat
            · simp [show x.toNat < z.toNat by omega]
            · by_cases h3 : z.toNat < y.toNat
              · simp [h2, h3] at hbc
              · simp only [h2, h3, if_false] at hbc
                simp only [show ¬ x.toNat < z.toNat by omega, show ¬ z.toNat < x.toNat by omega,
                  if_false]
                exact ih ys zs hab hbc

/-- The server answers a range request in ascending order of the keys. -/
theorem rangePrefix_sorted (srv : Server) (pre : String) :
    (srv.rangePrefix pre).Pairwise fun a b => charsLE a.Key.data b.Key.data = true := by
  have htotal : IsTotal _ keyLE := ⟨fun a b => charsLE_total a.1.data b.1.data⟩
  have htrans : IsTrans _ keyLE := ⟨fun a b c => charsLE_trans a.1.data b.1.data c.1.data⟩
  have hs := List.sorted_insertionSort keyLE
    (srv.kvs.entries.filter fun e => hasPrefix e.1 pre)
  rw [Server.rangePrefix, List.pairwise_map]
  exact hs

/-- The records `ReleaseByID` is to delete come in ascending order of their keys. -/
theorem matching_sorted (s : Store) (c : Client) (id : String) :
    (s.matching c id).Pairwise fun a b => charsLE a.Key.data b.Key.data = true :=
  (rangePrefix_sorted c.server _).filter _

theorem LastReservedIP_eq (s : Store) (o : Oracle) (c : Client) (rangeID : String)
    (h : o.fault c.log.length = none) :
    (s.LastReservedIP o c rangeID).1 =
      match c.server.kvs.lookup (s.lastReservedKey rangeID) with
      | none => ([], some (.new "Can not find last reserved ip"))
      | some e => (ParseIP e.value, none) := by
  have hl : s.EtcdKeyPrefix ++ "/lastReserved/" ++ rangeID = s.lastReservedKey rangeID := rfl
  simp only [Store.LastReservedIP, hl, Get_ok c _ h, Server.range]
  cases c.server.kvs.lookup (s.lastReservedKey rangeID) <;> simp

theorem ReleaseByID_ok (s : Store) (o : Oracle) (hff : o.FaultFree) (c : Client)
    (id : String) :
    s.ReleaseByID o c id =
      (none, ⟨c.server.deleteAll ((s.matching c id).map KeyValue.Key),
        c.log ++ Call.getPrefix (s.EtcdKeyPrefix ++ "/used/") ::
          (s.matching c id).map fun kv => Call.delete kv.Key⟩) := by
  rw [ReleaseByID_eq_loop s o c id (hff _), releaseLoop_ok o id _ _ (fun j _ => hff _)]
  simp [Client.logged, Store.matching]

theorem ReleaseByID_lookup (s : Store) (o : Oracle) (hff : o.FaultFree) (c : Client)
    (id : String) (k : String) :
    (s.ReleaseByID o c id).2.server.kvs.lookup k =
      if hasPrefix k (s.EtcdKeyPrefix ++ "/used/") = true ∧ c.server.value? k = some id
      then none else c.server.kvs.lookup k := by
  rw [ReleaseByID_ok s o hff]
  simp only [lookup_deleteAll, mem_matching_keys]

/-- C7: on a fault-free store `ReleaseByID(id)` returns `nil`; afterwards a key is absent
if it starts with `<prefix>/used/` and held the value `id`, and every other key holds what
it held.  The leases, every last-reserved pointer, the lock record and the pool
registration are untouched, and `LastReservedIP` answers as before for every range. -/
theorem ReleaseByID_postcondition (s : Store) (o : Oracle) (hff : o.FaultFree) (c : Client)
    (id : String) :
    (s.ReleaseByID o c id).1 = none ∧
    (∀ k, (s.ReleaseByID o c id).2.server.kvs.lookup k =
      if hasPrefix k (s.EtcdKeyPrefix ++ "/used/") = true ∧ c.server.value? k = some id
      then none else c.server.kvs.lookup k) ∧
    (s.ReleaseByID o c id).2.server.leases = c.server.leases ∧
    (∀ r, (s.ReleaseByID o c id).2.server.kvs.lookup (s.lastReservedKey r)
      = c.server.kvs.lookup (s.lastReservedKey r)) ∧
    (s.ReleaseByID o c id).2.server.kvs.lookup s.lockKey = c.server.kvs.lookup s.lockKey ∧
    (s.ReleaseByID o c id).2.server.kvs.lookup s.EtcdKeyPrefix
      = c.server.kvs.lookup s.EtcdKeyPrefix ∧
    (∀ r, (s.LastReservedIP o (s.ReleaseByID o c id).2 r).1 = (s.LastReservedIP o c r).1) := by
  have hrun := ReleaseByID_ok s o hff c id
  have hlook := ReleaseByID_lookup s o hff c id
  have hlast : ∀ r, (s.ReleaseByID o c id).2.server.kvs.lookup (s.lastReservedKey r)
      = c.server.kvs.lookup (s.lastReservedKey r) := by
    intro r
    rw [hlook, hasPrefix_lastReservedKey]
    simp
  refine ⟨by rw [hrun], hlook, ?_, hlast, ?_, ?_, ?_⟩
  · rw [hrun]; exact leases_deleteAll _ _
  · rw [hlook, hasPrefix_lockKey]; simp
  · rw [hlook, hasPrefix_prefix]; simp
  · intro r
    rw [LastReservedIP_eq s o _ r (hff _), LastReservedIP_eq s o c r (hff _), hlast]

theorem ReleaseByID_postcondition_witness :
    calm.FaultFree ∧
    threeHeld.server.value? "/etcd-cni/networks/net1/used/10.0.0.5" = some "containerA" ∧
    threeHeld.server.value? "/etcd-cni/networks/net1/used/10.0.0.9" = some "containerA" ∧
    (net1.ReleaseByID calm threeHeld "containerA").1 = none ∧
    (net1.ReleaseByID calm threeHeld "containerA").2.server.kvs.lookup
      "/etcd-cni/networks/net1/used/10.0.0.5" = none ∧
    (net1.ReleaseByID calm threeHeld "containerA").2.server.kvs.lookup
      "/etcd-cni/networks/net1/used/10.0.0.9" = none ∧
    (net1.ReleaseByID calm threeHeld "containerA").2.server.value?
      "/etcd-cni/networks/net1/used/10.0.0.7" = some "containerB" ∧
    (net1.LastReservedIP calm (net1.ReleaseByID calm threeHeld "containerA").2 "range0").1
      = (net1.LastReservedIP calm threeHeld "range0").1 ∧
    (net1.LastReservedIP calm threeHeld "range0").1 = (IPv4 10 0 0 9, none) :=
  ⟨fun _ => rfl, by decide, by decide,
    (ReleaseByID_postcondition net1 calm (fun _ => rfl) threeHeld "containerA").1,
    by decide, by decide, by decide,
    (ReleaseByID_postcondition net1 calm (fun _ => rfl) threeHeld "containerA").2.2.2.2.2.2
      "range0",
    by decide⟩

/-- C8: `ReleaseByID` stops at the first failure.  The scan order is the ascending order
of the keys, in which the server lists them.  If the scan fails, its error is
returned, the server is as before and no delete is issued.  If the scan succeeds and the
delete of the matching record number `k` (counted from 0, in scan order) is the first
delete to fail, that error is returned, the calls issued are the scan and one delete for
each of the first `k + 1` matching records and nothing more, the records before number
`k` are gone, every other key is as before, and the records from number `k` on are still
held by `id`. -/
theorem ReleaseByID_aborts_on_first_failure (s : Store) (o : Oracle) (c : Client)
    (id : String) :
    ((s.matching c id).Pairwise fun a b => charsLE a.Key.data b.Key.data = true) ∧
    (∀ e, o.fault c.log.length = some e →
      s.ReleaseByID o c id =
        (some e, ⟨c.server, c.log ++ [.getPrefix (s.EtcdKeyPrefix ++ "/used/")]⟩)) ∧
    (∀ k e, k < (s.matching c id).length →
      (∀ j, j ≤ k → o.fault (c.log.length + j) = none) →
      o.fault (c.log.length + (k + 1)) = some e →
      (s.ReleaseByID o c id).1 = some e ∧
      (s.ReleaseByID o c id).2.log =
        c.log ++ Call.getPrefix (s.EtcdKeyPrefix ++ "/used/") ::
          ((s.matching c id).take (k + 1)).map (fun kv => Call.delete kv.Key) ∧
      (∀ key, (s.ReleaseByID o c id).2.server.kvs.lookup key =
        if key ∈ ((s.matching c id).take k).map KeyValue.Key then none
        else c.server.kvs.lookup key) ∧
      (∀ kv, kv ∈ (s.matching c id).drop k →
        (s.ReleaseByID o c id).2.server.value? kv.Key = some id)) := by
  refine ⟨matching_sorted s c id, ?_, ?_⟩
  · intro e he
    simp [Store.ReleaseByID, Client.GetPrefix, he, Client.logged]
  · intro k e hk hnone hsome
    have hrun : s.ReleaseByID o c id =
        (some e, ⟨c.server.deleteAll (((s.matching c id).take k).map KeyValue.Key),
          c.log ++ Call.getPrefix (s.EtcdKeyPrefix ++ "/used/") ::
            ((s.matching c id).take (k + 1)).map fun kv => Call.delete kv.Key⟩) := by
      have h0 : o.fault c.log.length = none := by simpa using hnone 0 (Nat.zero_le _)
      rw [ReleaseByID_eq_loop s o c id h0, releaseLoop_fail o id e _ _ k hk]
      · simp [Client.logged, Store.matching]
      · intro j hj
        have := hnone (j + 1) hj
        simpa [Client.logged, Nat.add_assoc, Nat.add_comm 1 j] using this
      · simpa [Client.logged, Nat.add_assoc, Nat.add_comm 1 k] using hsome
    have hlook : ∀ key, (s.ReleaseByID o c id).2.server.kvs.lookup key =
        if key ∈ ((s.matching c id).take k).map KeyValue.Key then none
        else c.server.kvs.lookup key := by
      intro key
      rw [hrun]
      simp only [lookup_deleteAll]
    refine ⟨by rw [hrun], by rw [hrun], hlook, ?_⟩
    intro kv hkv
    have hnd := nodup_matching_keys s c id
    rw [← List.take_append_drop k (s.matching c id), List.map_append,
      List.nodup_append] at hnd
    have hnot : kv.Key ∉ ((s.matching c id).take k).map KeyValue.Key := fun hin =>
      hnd.2.2 hin (List.mem_map_of_mem _ hkv)
    have hval : c.server.value? kv.Key = some id :=
      ((mem_matching_keys s c id kv.Key).1
        (List.mem_map_of_mem _ (List.mem_of_mem_drop hkv))).2
    simp only [Server.value?, hlook, if_neg hnot] at hval ⊢
    exact hval

theorem ReleaseByID_aborts_on_first_failure_witness :
    (net1.matching threeHeld "containerA").map KeyValue.Key =
      ["/etcd-cni/networks/net1/used/10.0.0.5", "/etcd-cni/networks/net1/used/10.0.0.9"] ∧
    (net1.ReleaseByID (failAt 11 timedOut) threeHeld "containerA").1 = some timedOut ∧
    (net1.ReleaseByID (failAt 11 timedOut) threeHeld "containerA").2.log =
      threeHeld.log ++ [.getPrefix "/etcd-cni/networks/net1/used/",
        .delete "/etcd-cni/networks/net1/used/10.0.0.5",
        .delete "/etcd-cni/networks/net1/used/10.0.0.9"] ∧
    (net1.ReleaseByID (failAt 11 timedOut) threeHeld "containerA").2.server.value?
      "/etcd-cni/networks/net1/used/10.0.0.5" = none ∧
    (net1.ReleaseByID (failAt 11 timedOut) threeHeld "containerA").2.server.value?
      "/etcd-cni/networks/net1/used/10.0.0.9" = some "containerA" ∧
    net1.ReleaseByID (failAt 9 timedOut) threeHeld "containerA" =
      (some timedOut,
        ⟨threeHeld.server, threeHeld.log ++ [.getPrefix "/etcd-cni/networks/net1/used/"]⟩) :=
  have h := (ReleaseByID_aborts_on_first_failure net1 (failAt 11 timedOut) threeHeld
    "containerA").2.2 1 timedOut (by decide)
    (fun j hj => by
      have h9 : threeHeld.log.length = 9 := by decide
      simp only [failAt, h9]
      rw [if_neg (by omega)])
    (by decide)
  ⟨by decide, h.1, by rw [h.2.1]; decide, by decide,
    h.2.2.2 ⟨"/etcd-cni/networks/net1/used/10.0.0.9", "containerA", 6, 0⟩ (by decide),
    (ReleaseByID_aborts_on_first_failure net1 (failAt 9 timedOut) threeHeld
      "containerA").2.1 timedOut (by decide)⟩

/-- C9: `containerA` holds `10.0.0.5` and `10.0.0.9`, scanned in that order, and the
delete of `used/10.0.0.5` fails.  `ReleaseByID` returns that error instead of `nil`, and
the log shows that no delete was issued for `used/10.0.0.9`, which stays reserved. -/
theorem ReleaseByID_does_not_eat_errors :
    (net1.matching threeHeld "containerA").map KeyValue.Key =
      ["/etcd-cni/networks/net1/used/10.0.0.5", "/etcd-cni/networks/net1/used/10.0.0.9"] ∧
    (net1.ReleaseByID (failAt 10 timedOut) threeHeld "containerA").1 = some timedOut ∧
    (net1.ReleaseByID (failAt 10 timedOut) threeHeld "containerA").2.log =
      threeHeld.log ++ [.getPrefix "/etcd-cni/networks/net1/used/",
        .delete "/etcd-cni/networks/net1/used/10.0.0.5"] ∧
    Call.delete "/etcd-cni/networks/net1/used/10.0.0.9" ∉
      (net1.ReleaseByID (failAt 10 timedOut) threeHeld "containerA").2.log ∧
    (net1.ReleaseByID (failAt 10 timedOut) threeHeld "containerA").2.server.value?
      "/etcd-cni/networks/net1/used/10.0.0.9" = some "containerA" ∧
    (net1.ReleaseByID (failAt 10 timedOut) threeHeld "containerA").2.server.value?
      "/etcd-cni/networks/net1/used/10.0.0.5" = some "containerA" := by
  decide

/-! ## Sequential executions -/

theorem Release_ok {s : Store} {o : Oracle} (hff : o.FaultFree) (c : Client) (ip : IP) :
    s.Release o c ip =
      (none, ⟨c.server.delete (s.usedKey ip), c.log ++ [.delete (s.usedKey ip)]⟩) := by
  have hk : s.EtcdKeyPrefix ++ "/used/" ++ ip.String = s.usedKey ip := rfl
  simp [Store.Release, hk, Delete_ok c _ (hff _), Client.logged]

theorem value?_eq_none (s : Server) (k : String) :
    s.value? k = none ↔ s.kvs.lookup k = none := by
  simp [Server.value?]

theorem Reserve_claimed_iff {s : Store} {o : Oracle} (hff : o.FaultFree) (c : Client)
    (id : String) (ip : IP) (rangeID : String) :
    (s.Reserve o c id ip rangeID).1 =
      (decide (c.server.kvs.lookup (s.usedKey ip) = none), none) := by
  by_cases h : c.server.kvs.lookup (s.usedKey ip) = none
  · rw [Reserve_free hff c id ip rangeID h]; simp [h]
  · rw [Reserve_taken hff c id ip rangeID h]; simp [h]

/-- A call that does not release the record of `a` leaves it with its owner. -/
theorem step_keeps_record {s : Store} {o : Oracle} (hff : o.FaultFree) (c : Client) (a : IP)
    (owner : String) (act : Action) (hact : act.releasesAddr a owner = false)
    (h : c.server.value? (s.usedKey a) = some owner) :
    (s.step o c act).2.server.value? (s.usedKey a) = some owner := by
  cases act with
  | reserve id b r =>
    by_cases hb : c.server.kvs.lookup (s.usedKey b) = none
    · have hne : s.usedKey a ≠ s.usedKey b := by
        intro heq
        rw [← heq] at hb
        simp [Server.value?, hb] at h
      simp only [Store.step, Reserve_free hff c id b r hb, Server.value?]
      rw [lookup_put_ne _ _ _ _ (usedKey_ne_lastReservedKey s a r), lookup_put_ne _ _ _ _ hne]
      exact h
    · simp only [Store.step, Reserve_taken hff c id b r hb]
      exact h
  | release b =>
    have hne : s.usedKey a ≠ s.usedKey b := by
      intro heq
      have := (usedKey_eq_iff s a b).1 heq
      simp [Action.releasesAddr, this] at hact
    simp only [Store.step, Release_ok hff, Server.value?, lookup_delete, if_neg hne]
    exact h
  | releaseByID id =>
    have hid : id ≠ owner := by simpa [Action.releasesAddr] using hact
    have hl := ReleaseByID_lookup s o hff c id (s.usedKey a)
    have hno : ¬ (hasPrefix (s.usedKey a) (s.EtcdKeyPrefix ++ "/used/") = true ∧
        c.server.value? (s.usedKey a) = some id) := by
      rintro ⟨_, h2⟩
      rw [h] at h2
      exact hid (Option.some.inj h2).symm
    rw [if_neg hno] at hl
    simp only [Store.step, Server.value?, hl]
    exact h

/-- A call that is not a `Reserve` for `a` does not create the record of `a`. -/
theorem step_keeps_free {s : Store} {o : Oracle} (hff : o.FaultFree) (c : Client) (a : IP)
    (act : Action) (hact : act.reservesAddr a = false)
    (h : c.server.kvs.lookup (s.usedKey a) = none) :
    (s.step o c act).2.server.kvs.lookup (s.usedKey a) = none := by
  cases act with
  | reserve id b r =>
    have hne : s.usedKey a ≠ s.usedKey b := by
      intro heq
      have := (usedKey_eq_iff s a b).1 heq
      simp [Action.reservesAddr, this] at hact
    by_cases hb : c.server.kvs.lookup (s.usedKey b) = none
    · simp only [Store.step, Reserve_free hff c id b r hb]
      rw [lookup_put_ne _ _ _ _ (usedKey_ne_lastReservedKey s a r), lookup_put_ne _ _ _ _ hne]
      exact h
    · simp only [Store.step, Reserve_taken hff c id b r hb]
      exact h
  | release b =>
    simp only [Store.step, Release_ok hff, lookup_delete, h]
    simp
  | releaseByID id =>
    have hl := ReleaseByID_lookup s o hff c id (s.usedKey a)
    simp only [Store.step, hl, h]
    simp

theorem run_keeps_record {s : Store} {o : Oracle} (hff : o.FaultFree) (a : IP)
    (owner : String) :
    ∀ (acts : List Action) (c : Client),
      (∀ act ∈ acts, act.releasesAddr a owner = false) →
      c.server.value? (s.usedKey a) = some owner →
      (s.run o acts c).2.server.value? (s.usedKey a) = some owner ∧
      ∀ p ∈ acts.zip (s.run o acts c).1, ∀ owner2 b r2,
        p.1 = Action.reserve owner2 b r2 → b.String = a.String →
        p.2 = Outcome.reserved false none := by
  intro acts
  induction acts with
  | nil => intro c _ h; exact ⟨h, by simp [Store.run]⟩
  | cons act acts ih =>
    intro c hacts h
    have h1 := step_keeps_record hff c a owner act (hacts act (List.mem_cons_self _ _)) h
    have h2 := ih (s.step o c act).2 (fun x hx => hacts x (List.mem_cons_of_mem _ hx)) h1
    refine ⟨h2.1, ?_⟩
    intro p hp owner2 b r2 hp1 hb
    simp only [Store.run, List.zip_cons_cons, List.mem_cons] at hp
    rcases hp with hp | hp
    · subst hp
      simp only at hp1
      subst hp1
      have hk : c.server.kvs.lookup (s.usedKey b) ≠ none := by
        rw [(usedKey_eq_iff s b a).2 hb]
        intro hn
        simp [Server.value?, hn] at h
      simp [Store.step, Reserve_taken hff c owner2 b r2 hk]
    · exact h2.2 p hp owner2 b r2 hp1 hb

theorem run_keeps_free {s : Store} {o : Oracle} (hff : o.FaultFree) (a : IP) :
    ∀ (acts : List Action) (c : Client),
      (∀ act ∈ acts, act.reservesAddr a = false) →
      c.server.kvs.lookup (s.usedKey a) = none →
      (s.run o acts c).2.server.kvs.lookup (s.usedKey a) = none := by
  intro acts
  induction acts with
  | nil => intro c _ h; exact h
  | cons act acts ih =>
    intro c hacts h
    exact ih (s.step o c act).2 (fun x hx => hacts x (List.mem_cons_of_mem _ hx))
      (step_keeps_free hff c a act (hacts act (List.mem_cons_self _ _)) h)

/-- C2: uniqueness under serialization.  On a fault-free store, let `Reserve(owner1, a, r1)`
return `(true, nil)` and let any sequence `acts` of `Reserve`, `Release` and `ReleaseByID`
calls follow that holds neither a `Release` of `a` nor a `ReleaseByID(owner1)`.  Then every
`Reserve` for `a` in `acts` returned `(false, nil)`, and so does any `Reserve` for `a`
issued next.  If instead `Release(a)` or `ReleaseByID(owner1)` comes next, followed by
calls `acts'` none of which is a `Reserve` for `a`, the `Reserve` for `a` issued after
them returns `(true, nil)`. -/
theorem Reserve_unique_until_release (s : Store) (o : Oracle) (hff : o.FaultFree)
    (c : Client) (owner1 : String) (a : IP) (r1 : String)
    (h1 : (s.Reserve o c owner1 a r1).1 = (true, none))
    (acts : List Action) (hacts : ∀ act ∈ acts, act.releasesAddr a owner1 = false) :
    (∀ p ∈ acts.zip (s.run o acts (s.Reserve o c owner1 a r1).2).1, ∀ owner2 b r2,
      p.1 = Action.reserve owner2 b r2 → b.String = a.String →
      p.2 = Outcome.reserved false none) ∧
    (∀ owner2 r2,
      (s.Reserve o (s.run o acts (s.Reserve o c owner1 a r1).2).2 owner2 a r2).1
        = (false, none)) ∧
    (∀ rel, rel = Action.release a ∨ rel = Action.releaseByID owner1 →
      ∀ acts' : List Action, (∀ act ∈ acts', act.reservesAddr a = false) →
      ∀ owner2 r2,
        (s.Reserve o
          (s.run o (rel :: acts') (s.run o acts (s.Reserve o c owner1 a r1).2).2).2
          owner2 a r2).1 = (true, none)) := by
  have hfree : c.server.kvs.lookup (s.usedKey a) = none := by
    rw [Reserve_claimed_iff hff] at h1
    simpa using h1
  have hheld : (s.Reserve o c owner1 a r1).2.server.value? (s.usedKey a) = some owner1 := by
    rw [Reserve_free hff c owner1 a r1 hfree]
    obtain ⟨cr, hcr⟩ := lookup_put_self c.server (s.usedKey a) owner1 0
    simp [Server.value?, lookup_put_ne _ _ _ _ (usedKey_ne_lastReservedKey s a r1), hcr]
  have hrun := run_keeps_record hff a owner1 acts _ hacts hheld
  refine ⟨hrun.2, ?_, ?_⟩
  · intro owner2 r2
    rw [Reserve_claimed_iff hff]
    have : (s.run o acts (s.Reserve o c owner1 a r1).2).2.server.kvs.lookup (s.usedKey a)
        ≠ none := by
      intro hn
      have := hrun.1
      simp [Server.value?, hn] at this
    simp [this]
  · intro rel hrel acts' hacts' owner2 r2
    rw [Reserve_claimed_iff hff]
    have hgone : (s.step o (s.run o acts (s.Reserve o c owner1 a r1).2).2 rel).2.server.kvs.lookup
        (s.usedKey a) = none := by
      rcases hrel with rfl | rfl
      · simp [Store.step, Release_ok hff, lookup_delete]
      · simp only [Store.step, ReleaseByID_lookup s o hff]
        rw [if_pos ⟨hasPrefix_usedKey s a, hrun.1⟩]
    have := run_keeps_free hff a acts' _ hacts' hgone
    simp only [Store.run]
    simp [this]

theorem Reserve_unique_until_release_witness :
    calm.FaultFree ∧
    (initStore calm freshClient "net1" "10.0.0.2-10.0.0.254").1 = some net1.EtcdKeyPrefix ∧
    (net1.Reserve calm registered "containerA" ip5 "range0").1 = (true, none) ∧
    (net1.run calm
      [.reserve "containerA" ip5 "range0", .reserve "containerB" ip5 "range0",
        .release ip5, .reserve "containerB" ip5 "range0"] registered).1
      = [.reserved true none, .reserved false none, .released none, .reserved true none] ∧
    (net1.Reserve calm
      (net1.run calm [.reserve "containerB" ip5 "range0", .reserve "containerB" ip9 "range0"]
        (net1.Reserve calm registered "containerA" ip5 "range0").2).2
      "containerC" ip5 "range1").1 = (false, none) ∧
    (net1.Reserve calm
      (net1.run calm [.releaseByID "containerA", .release ip9]
        (net1.run calm [.reserve "containerB" ip5 "range0", .reserve "containerB" ip9 "range0"]
          (net1.Reserve calm registered "containerA" ip5 "range0").2).2).2
      "containerC" ip5 "range1").1 = (true, none) :=
  have h := Reserve_unique_until_release net1 calm (fun _ => rfl) registered "containerA" ip5
    "range0" (by decide)
    [.reserve "containerB" ip5 "range0", .reserve "containerB" ip9 "range0"] (by decide)
  ⟨fun _ => rfl, by decide, by decide, by decide, h.2.1 "containerC" "range1",
    h.2.2 (.releaseByID "containerA") (Or.inr rfl) [.release ip9] (by decide)
      "containerC" "range1"⟩

/-! ## Lock -/

theorem createRevision_eq_zero (srv : Server) (key : String) :
    srv.createRevision key = 0 ↔ srv.kvs.lookup key = none := by
  unfold Server.createRevision
  cases srv.kvs.lookup key with
  | none => simp
  | some e => simp

/-- An attempt that finds the key absent. -/
theorem lockAttempt_absent {o : Oracle} (key : String) (ttl : Int) (c : Client)
    (hg : o.fault c.log.length = none) (ht : o.fault (c.log.length + 1) = none)
    (h : c.server.kvs.lookup key = none) :
    Store.lockAttempt o key ttl c =
      (.ok true,
        ⟨(c.server.grant (o.leaseID c.log.length)).put key
            (FormatInt (o.leaseID c.log.length)) (o.leaseID c.log.length),
          c.log ++ [.grant ttl, .txn key 0
            (.put key (FormatInt (o.leaseID c.log.length)) (o.leaseID c.log.length))
            (.get key)]⟩) := by
  have hc : (c.server.grant (o.leaseID c.log.length)).createRevision key = 0 :=
    (createRevision_eq_zero _ _).2 h
  simp [Store.lockAttempt, Client.Grant, Client.Txn, Client.logged, hg, ht, hc, Server.applyOp]

/-- An attempt that finds the key present. -/
theorem lockAttempt_present {o : Oracle} (key : String) (ttl : Int) (c : Client)
    (hg : o.fault c.log.length = none) (ht : o.fault (c.log.length + 1) = none)
    (h : c.server.kvs.lookup key ≠ none) :
    Store.lockAttempt o key ttl c =
      (.ok false,
        ⟨c.server.grant (o.leaseID c.log.length),
          c.log ++ [.grant ttl, .txn key 0
            (.put key (FormatInt (o.leaseID c.log.length)) (o.leaseID c.log.length))
            (.get key)]⟩) := by
  have hc : (c.server.grant (o.leaseID c.log.length)).createRevision key ≠ 0 := fun h0 =>
    h ((createRevision_eq_zero _ _).1 h0)
  simp [Store.lockAttempt, Client.Grant, Client.Txn, Client.logged, hg, ht, hc, Server.applyOp]

/-- The loop when every pass finds the key present. -/
theorem lockLoop_timeout {o : Oracle} (hff : o.FaultFree) (key : String) (ttl : Int) :
    ∀ (left i : Nat) (c : Client),
      (∀ k, k < left → (Store.attemptState o key ttl i k c).server.kvs.lookup key ≠ none) →
      Store.lockLoop o key ttl left i c = (.ok false, Store.attemptState o key ttl i left c) := by
  intro left
  induction left with
  | zero => intro i c _; rfl
  | succ left ih =>
    intro i c h
    have h0 : c.server.kvs.lookup key ≠ none := h 0 (Nat.succ_pos _)
    have hrest := ih (i + 1) (Store.sleep o i (Store.lockAttempt o key ttl c).2)
      (fun k hk => h (k + 1) (Nat.succ_lt_succ hk))
    rw [Store.lockLoop]
    rw [lockAttempt_present key ttl c (hff _) (hff _) h0] at hrest ⊢
    simp only [Store.attemptState]
    rw [lockAttempt_present key ttl c (hff _) (hff _) h0]
    exact hrest

/-- The loop when pass `i + k` is the first to find the key absent. -/
theorem lockLoop_acquire {o : Oracle} (hff : o.FaultFree) (key : String) (ttl : Int) :
    ∀ (left i : Nat) (c : Client) (k : Nat), k < left →
      (∀ j, j < k → (Store.attemptState o key ttl i j c).server.kvs.lookup key ≠ none) →
      (Store.attemptState o key ttl i k c).server.kvs.lookup key = none →
      Store.lockLoop o key ttl left i c =
        (.ok true, (Store.lockAttempt o key ttl (Store.attemptState o key ttl i k c)).2) := by
  intro left
  induction left with
  | zero => intro i c k hk; exact absurd hk (Nat.not_lt_zero _)
  | succ left ih =>
    intro i c k hk hpre habs
    cases k with
    | zero =>
      have h0 : c.server.kvs.lookup key = none := habs
      rw [Store.lockLoop]
      simp only [Store.attemptState]
      rw [lockAttempt_absent key ttl c (hff _) (hff _) h0]
    | succ k =>
      have h0 : c.server.kvs.lookup key ≠ none := hpre 0 (Nat.succ_pos _)
      have hrest := ih (i + 1) (Store.sleep o i (Store.lockAttempt o key ttl c).2) k
        (Nat.lt_of_succ_lt_succ hk) (fun j hj => hpre (j + 1) (Nat.succ_lt_succ hj)) habs
      rw [Store.lockLoop]
      simp only [Store.attemptState]
      rw [lockAttempt_present key ttl c (hff _) (hff _) h0] at hrest ⊢
      exact hrest

/-- Whatever the oracle does, an attempt issues the grant and at most the transaction. -/
theorem lockAttempt_log (s : Store) (o : Oracle) (c : Client) :
    ∃ calls, (Store.lockAttempt o s.lockKey 10 c).2.log = c.log ++ calls ∧
      calls.length ≤ 2 ∧ ∀ call ∈ calls, s.IsAttemptCall call := by
  unfold Store.lockAttempt Client.Grant
  cases hg : o.fault c.log.length with
  | some e =>
    exact ⟨[.grant 10], by simp [Client.logged], by simp, by simp [Store.IsAttemptCall]⟩
  | none =>
    refine ⟨[.grant 10, .txn s.lockKey 0
      (.put s.lockKey (FormatInt (o.leaseID c.log.length)) (o.leaseID c.log.length))
      (.get s.lockKey)], ?_, by simp, ?_⟩
    · simp only [Client.Txn, Client.logged]
      cases o.fault (c.log ++ [Call.grant 10]).length with
      | some e => simp
      | none =>
        by_cases hc : (c.server.grant (o.leaseID c.log.length)).createRevision s.lockKey = 0
        · simp [hc]
        · simp [hc]
    · intro call hcall
      simp only [List.mem_cons, List.mem_singleton, List.not_mem_nil, or_false] at hcall
      rcases hcall with h | h
      · exact Or.inl h
      · exact Or.inr ⟨_, h⟩

/-- Whatever the oracle does, the loop with `left` passes to go issues at most `2 * left`
calls, each of them a call of an attempt. -/
theorem lockLoop_log (s : Store) (o : Oracle) :
    ∀ (left i : Nat) (c : Client),
      ∃ calls, (Store.lockLoop o s.lockKey 10 left i c).2.log = c.log ++ calls ∧
        calls.length ≤ 2 * left ∧ ∀ call ∈ calls, s.IsAttemptCall call := by
  intro left
  induction left with
  | zero => intro i c; exact ⟨[], by simp [Store.lockLoop], by simp, by simp⟩
  | succ left ih =>
    intro i c
    obtain ⟨calls, hlog, hlen, hshape⟩ := lockAttempt_log s o c
    rw [Store.lockLoop]
    rcases hres : Store.lockAttempt o s.lockKey 10 c with ⟨r, c1⟩
    rw [hres] at hlog
    simp only at hlog
    cases r with
    | error e => exact ⟨calls, hlog, by omega, hshape⟩
    | ok b =>
      cases b with
      | true => exact ⟨calls, hlog, by omega, hshape⟩
      | false =>
        obtain ⟨calls2, hlog2, hlen2, hshape2⟩ := ih (i + 1) (Store.sleep o i c1)
        refine ⟨calls ++ calls2, ?_, ?_, ?_⟩
        · simp only at hlog2 ⊢
          rw [hlog2]
          simp [Store.sleep, hlog]
        · simp only [List.length_append]; omega
        · intro call hcall
          rcases List.mem_append.1 hcall with h | h
          · exact hshape call h
          · exact hshape2 call h

/-- The log after `k` attempts that each found the key present. -/
theorem attemptState_log (s : Store) {o : Oracle} (hff : o.FaultFree) :
    ∀ (k i : Nat) (c : Client),
      (∀ j, j < k →
        (Store.attemptState o s.lockKey 10 i j c).server.kvs.lookup s.lockKey ≠ none) →
      (Store.attemptState o s.lockKey 10 i k c).log = c.log ++ s.attemptsLog o k c.log.length := by
  intro k
  induction k with
  | zero => intro i c _; simp [Store.attemptState, Store.attemptsLog]
  | succ k ih =>
    intro i c h
    have h0 : c.server.kvs.lookup s.lockKey ≠ none := h 0 (Nat.succ_pos _)
    have hrest := ih (i + 1) (Store.sleep o i (Store.lockAttempt o s.lockKey 10 c).2)
      (fun j hj => h (j + 1) (Nat.succ_lt_succ hj))
    simp only [Store.attemptState, Store.attemptsLog]
    rw [hrest, lockAttempt_present s.lockKey 10 c (hff _) (hff _) h0]
    simp [Store.sleep, Store.attemptCalls]

theorem attemptsLog_length (s : Store) (o : Oracle) :
    ∀ (n start : Nat), (s.attemptsLog o n start).length = 2 * n := by
  intro n
  induction n with
  | zero => intro start; rfl
  | succ n ih =>
    intro start
    simp only [Store.attemptsLog, List.length_append, ih, Store.attemptCalls,
      List.length_cons, List.length_nil]
    omega

theorem attemptsLog_succ (s : Store) (o : Oracle) :
    ∀ (n start : Nat), s.attemptsLog o (n + 1) start =
      s.attemptsLog o n start ++ s.attemptCalls (o.leaseID (start + 2 * n)) := by
  intro n
  induction n with
  | zero => intro start; simp [Store.attemptsLog]
  | succ n ih =>
    intro start
    rw [Store.attemptsLog, ih (start + 2)]
    have : start + 2 + 2 * n = start + 2 * (n + 1) := by omega
    rw [this]
    simp [Store.attemptsLog]

/-- `Lock` when each of the 20 attempts finds the key present. -/
theorem Lock_timeout (s : Store) {o : Oracle} (hff : o.FaultFree) (c : Client)
    (h : ∀ k, k < 20 → (s.beforeAttempt o k c).server.kvs.lookup s.lockKey ≠ none) :
    s.Lock o c = (some (.new "Can not get lock"), s.beforeAttempt o 20 c) := by
  have hk : s.EtcdKeyPrefix ++ "/lock" = s.lockKey := rfl
  simp only [Store.Lock, hk]
  rw [lockLoop_timeout hff s.lockKey 10 20 0 c h]
  rfl

/-- `Lock` when attempt `k` is the first to find the key absent. -/
theorem Lock_acquire (s : Store) {o : Oracle} (hff : o.FaultFree) (c : Client) (k : Nat)
    (hk : k < 20)
    (hpre : ∀ j, j < k → (s.beforeAttempt o j c).server.kvs.lookup s.lockKey ≠ none)
    (habs : (s.beforeAttempt o k c).server.kvs.lookup s.lockKey = none) :
    s.Lock o c = (none, (Store.lockAttempt o s.lockKey 10 (s.beforeAttempt o k c)).2) := by
  have hkey : s.EtcdKeyPrefix ++ "/lock" = s.lockKey := rfl
  simp only [Store.Lock, hkey]
  rw [lockLoop_acquire hff s.lockKey 10 20 0 c k hk hpre habs]
  rfl

/-- If `Lock` returns `nil`, some attempt was the first to find the key absent. -/
theorem Lock_nil_first_absent (s : Store) {o : Oracle} (hff : o.FaultFree) (c : Client)
    (h : (s.Lock o c).1 = none) :
    ∃ k, k < 20 ∧ (s.beforeAttempt o k c).server.kvs.lookup s.lockKey = none ∧
      ∀ j, j < k → (s.beforeAttempt o j c).server.kvs.lookup s.lockKey ≠ none := by
  by_contra hno
  have hall : ∀ k, k < 20 → (s.beforeAttempt o k c).server.kvs.lookup s.lockKey ≠ none := by
    intro k
    induction k using Nat.strong_induction_on with
    | _ k ih =>
      intro hk habs
      exact hno ⟨k, hk, habs, fun j hj => ih j hj (Nat.lt_trans hj hk)⟩
  rw [Lock_timeout s hff c hall] at h
  exact absurd h (by simp)

/-- When the rest of the world leaves the lock record alone, every attempt of a `Lock`
that started with the record in place finds that same record. -/
theorem attemptState_lookup {o : Oracle} (hff : o.FaultFree) (key : String) (ttl : Int)
    (hint : ∀ i srv, (o.interfere i srv).kvs.lookup key = srv.kvs.lookup key) :
    ∀ (k i : Nat) (c : Client), c.server.kvs.lookup key ≠ none →
      (Store.attemptState o key ttl i k c).server.kvs.lookup key = c.server.kvs.lookup key := by
  intro k
  induction k with
  | zero => intro i c _; rfl
  | succ k ih =>
    intro i c h
    have hstep : (Store.sleep o i (Store.lockAttempt o key ttl c).2).server.kvs.lookup key
        = c.server.kvs.lookup key := by
      rw [lockAttempt_present key ttl c (hff _) (hff _) h]
      simp [Store.sleep, hint, Server.grant]
    simp only [Store.attemptState]
    rw [ih (i + 1) _ (by rw [hstep]; exact h), hstep]

/-- An attempt whose grant fails. -/
theorem lockAttempt_grant_fails {o : Oracle} (key : String) (ttl : Int) (c : Client)
    {e : Error} (hg : o.fault c.log.length = some e) :
    Store.lockAttempt o key ttl c = (.error e, ⟨c.server, c.log ++ [.grant ttl]⟩) := by
  simp [Store.lockAttempt, Client.Grant, Client.logged, hg]

/-- An attempt whose transaction fails. -/
theorem lockAttempt_txn_fails {o : Oracle} (key : String) (ttl : Int) (c : Client)
    {e : Error} (hg : o.fault c.log.length = none) (ht : o.fault (c.log.length + 1) = some e) :
    Store.lockAttempt o key ttl c =
      (.error e,
        ⟨c.server.grant (o.leaseID c.log.length),
          c.log ++ [.grant ttl, .txn key 0
            (.put key (FormatInt (o.leaseID c.log.length)) (o.leaseID c.log.length))
            (.get key)]⟩) := by
  simp [Store.lockAttempt, Client.Grant, Client.Txn, Client.logged, hg, ht]

/-- Whatever fails, an attempt reports success only when both its calls went through and
it found the key absent. -/
theorem lockAttempt_true {o : Oracle} (key : String) (ttl : Int) (c : Client)
    (h : (Store.lockAttempt o key ttl c).1 = .ok true) :
    o.fault c.log.length = none ∧ o.fault (c.log.length + 1) = none ∧
      c.server.kvs.lookup key = none := by
  cases hg : o.fault c.log.length with
  | some e => rw [lockAttempt_grant_fails key ttl c hg] at h; cases h
  | none =>
    cases ht : o.fault (c.log.length + 1) with
    | some e => rw [lockAttempt_txn_fails key ttl c hg ht] at h; cases h
    | none =>
      by_cases hl : c.server.kvs.lookup key = none
      · exact ⟨rfl, rfl, hl⟩
      · rw [lockAttempt_present key ttl c hg ht hl] at h
        cases h

/-- Whatever fails, an attempt that finds the key present leaves the key space alone. -/
theorem lockAttempt_kvs {o : Oracle} (key : String) (ttl : Int) (c : Client)
    (hl : c.server.kvs.lookup key ≠ none) :
    (Store.lockAttempt o key ttl c).2.server.kvs = c.server.kvs := by
  cases hg : o.fault c.log.length with
  | some e => rw [lockAttempt_grant_fails key ttl c hg]
  | none =>
    cases ht : o.fault (c.log.length + 1) with
    | some e => rw [lockAttempt_txn_fails key ttl c hg ht]; rfl
    | none => rw [lockAttempt_present key ttl c hg ht hl]; rfl

/-- Whatever fails: if the loop leaves with the flag set, one pass was the first to
succeed, every pass before it ended in the sleep, and the loop ends in the state that
pass produced. -/
theorem lockLoop_true_elim (o : Oracle) (key : String) (ttl : Int) :
    ∀ (left i : Nat) (c : Client), (Store.lockLoop o key ttl left i c).1 = .ok true →
      ∃ k, k < left ∧
        (∀ j, j < k →
          (Store.lockAttempt o key ttl (Store.attemptState o key ttl i j c)).1 = .ok false) ∧
        (Store.lockAttempt o key ttl (Store.attemptState o key ttl i k c)).1 = .ok true ∧
        (Store.lockLoop o key ttl left i c).2 =
          (Store.lockAttempt o key ttl (Store.attemptState o key ttl i k c)).2 := by
  intro left
  induction left with
  | zero => intro i c h; cases h
  | succ left ih =>
    intro i c h
    rw [Store.lockLoop] at h ⊢
    rcases hres : Store.lockAttempt o key ttl c with ⟨r, c1⟩
    rw [hres] at h
    cases r with
    | error e => cases h
    | ok b =>
      cases b with
      | true =>
        refine ⟨0, Nat.succ_pos _, fun j hj => absurd hj (Nat.not_lt_zero _), ?_, ?_⟩
        · simp only [Store.attemptState, hres]
        · simp only [Store.attemptState, hres]
      | false =>
        simp only at h
        obtain ⟨k, hk, hpre, htrue, hend⟩ := ih (i + 1) (Store.sleep o i c1) h
        have hstate : ∀ j, Store.attemptState o key ttl i (j + 1) c =
            Store.attemptState o key ttl (i + 1) j (Store.sleep o i c1) := by
          intro j
          simp only [Store.attemptState, hres]
        refine ⟨k + 1, Nat.succ_lt_succ hk, ?_, ?_, ?_⟩
        · intro j hj
          cases j with
          | zero => simp only [Store.attemptState, hres]
          | succ j => rw [hstate]; exact hpre j (Nat.lt_of_succ_lt_succ hj)
        · rw [hstate]; exact htrue
        · rw [hstate]; exact hend

/-- Whatever fails: if pass `i + k` is the first to succeed and every pass before it
ended in the sleep, the loop leaves with the flag set. -/
theorem lockLoop_true_intro (o : Oracle) (key : String) (ttl : Int) :
    ∀ (left i : Nat) (c : Client) (k : Nat), k < left →
      (∀ j, j < k →
        (Store.lockAttempt o key ttl (Store.attemptState o key ttl i j c)).1 = .ok false) →
      (Store.lockAttempt o key ttl (Store.attemptState o key ttl i k c)).1 = .ok true →
      (Store.lockLoop o key ttl left i c).1 = .ok true := by
  intro left
  induction left with
  | zero => intro i c k hk; exact absurd hk (Nat.not_lt_zero _)
  | succ left ih =>
    intro i c k hk hpre htrue
    rw [Store.lockLoop]
    rcases hres : Store.lockAttempt o key ttl c with ⟨r, c1⟩
    cases k with
    | zero =>
      simp only [Store.attemptState, hres] at htrue
      subst htrue
      rfl
    | succ k =>
      have h0 := hpre 0 (Nat.succ_pos _)
      simp only [Store.attemptState, hres] at h0
      subst h0
      simp only
      have hstate : ∀ j, Store.attemptState o key ttl i (j + 1) c =
          Store.attemptState o key ttl (i + 1) j (Store.sleep o i c1) := by
        intro j
        simp only [Store.attemptState, hres]
      apply ih (i + 1) (Store.sleep o i c1) k (Nat.lt_of_succ_lt_succ hk)
      · intro j hj
        rw [← hstate]
        exact hpre (j + 1) (Nat.succ_lt_succ hj)
      · rw [← hstate]
        exact htrue

/-- Whatever fails: a loop that starts with the lock record in place, while the rest of
the world leaves that record alone, does not set the flag and ends with that record. -/
theorem lockLoop_record_kept (o : Oracle) (key : String) (ttl : Int)
    (hint : ∀ i srv, (o.interfere i srv).kvs.lookup key = srv.kvs.lookup key) :
    ∀ (left i : Nat) (c : Client), c.server.kvs.lookup key ≠ none →
      (Store.lockLoop o key ttl left i c).1 ≠ .ok true ∧
      (Store.lockLoop o key ttl left i c).2.server.kvs.lookup key = c.server.kvs.lookup key := by
  intro left
  induction left with
  | zero => intro i c _; exact ⟨by simp [Store.lockLoop], rfl⟩
  | succ left ih =>
    intro i c hl
    have hkvs := lockAttempt_kvs (o := o) key ttl c hl
    have hnot : (Store.lockAttempt o key ttl c).1 ≠ .ok true := fun h =>
      hl (lockAttempt_true key ttl c h).2.2
    rw [Store.lockLoop]
    rcases hres : Store.lockAttempt o key ttl c with ⟨r, c1⟩
    rw [hres] at hkvs hnot
    simp only at hkvs hnot
    cases r with
    | error e => exact ⟨by simp, by simp only [hkvs]⟩
    | ok b =>
      cases b with
      | true => exact absurd rfl hnot
      | false =>
        simp only
        have hstep : (Store.sleep o i c1).server.kvs.lookup key = c.server.kvs.lookup key := by
          simp only [Store.sleep, hint, hkvs]
        have := ih (i + 1) (Store.sleep o i c1) (by rw [hstep]; exact hl)
        exact ⟨this.1, by rw [this.2, hstep]⟩

/-- `Lock` returns `nil` exactly when its loop leaves with the flag set, and it ends in
the state in which the loop ended. -/
theorem Lock_eq_loop (s : Store) (o : Oracle) (c : Client) :
    ((s.Lock o c).1 = none ↔ (Store.lockLoop o s.lockKey 10 20 0 c).1 = .ok true) ∧
    (s.Lock o c).2 = (Store.lockLoop o s.lockKey 10 20 0 c).2 := by
  have hkey : s.EtcdKeyPrefix ++ "/lock" = s.lockKey := rfl
  simp only [Store.Lock, hkey]
  rcases Store.lockLoop o s.lockKey 10 20 0 c with ⟨r, c1⟩
  cases r with
  | error e => simp
  | ok b => cases b <;> simp

/-- C1: `Lock` acquires the lock only by creating the lock key when it is absent, under
every oracle (whatever calls fail, whatever the rest of the world does during the sleeps).
An attempt whose two calls go through and that finds `<prefix>/lock` absent reports
success and leaves the key with the decimal text of the granted lease `L` as value and
`L` attached, and a `Lock` whose first attempt is such returns `nil` in that state.  An
attempt reports success only if it found the key absent, and then it wrote that record.
An attempt that finds the key present does not report success and leaves the whole key
space as it was.  `Lock` returns `nil` exactly when one of its 20 attempts reports
success after the attempts before it ended in the sleep; it then ends in the state that
attempt produced, with the record of that attempt's lease, and that attempt found the key
absent.  On a fault-free store that is: exactly when one of the 20 attempts finds the key
absent.  If the key is present at each of the 20 attempts, `Lock` does not return `nil`.
If the record is present at the start and the rest of the world leaves it alone during
the call, `Lock` does not return `nil` and the record at the end is the one at the
start. -/
theorem Lock_acquires_only_when_absent (s : Store) (o : Oracle) (c : Client) :
    (o.fault c.log.length = none → o.fault (c.log.length + 1) = none →
      c.server.kvs.lookup s.lockKey = none →
      (Store.lockAttempt o s.lockKey 10 c).1 = .ok true ∧
      (∃ cr, (Store.lockAttempt o s.lockKey 10 c).2.server.kvs.lookup s.lockKey =
        some ⟨FormatInt (o.leaseID c.log.length), cr, o.leaseID c.log.length⟩) ∧
      s.Lock o c = (none, (Store.lockAttempt o s.lockKey 10 c).2)) ∧
    ((Store.lockAttempt o s.lockKey 10 c).1 = .ok true →
      c.server.kvs.lookup s.lockKey = none ∧
      ∃ cr, (Store.lockAttempt o s.lockKey 10 c).2.server.kvs.lookup s.lockKey =
        some ⟨FormatInt (o.leaseID c.log.length), cr, o.leaseID c.log.length⟩) ∧
    (c.server.kvs.lookup s.lockKey ≠ none →
      (Store.lockAttempt o s.lockKey 10 c).1 ≠ .ok true ∧
      (Store.lockAttempt o s.lockKey 10 c).2.server.kvs = c.server.kvs ∧
      (o.fault c.log.length = none → o.fault (c.log.length + 1) = none →
        (Store.lockAttempt o s.lockKey 10 c).1 = .ok false)) ∧
    ((s.Lock o c).1 = none ↔
      ∃ k, k < 20 ∧
        (∀ j, j < k → (Store.lockAttempt o s.lockKey 10 (s.beforeAttempt o j c)).1 = .ok false) ∧
        (Store.lockAttempt o s.lockKey 10 (s.beforeAttempt o k c)).1 = .ok true) ∧
    ((s.Lock o c).1 = none →
      ∃ k, k < 20 ∧ (s.beforeAttempt o k c).server.kvs.lookup s.lockKey = none ∧
        (∀ j, j < k → (Store.lockAttempt o s.lockKey 10 (s.beforeAttempt o j c)).1 = .ok false) ∧
        (o.FaultFree →
          ∀ j, j < k → (s.beforeAttempt o j c).server.kvs.lookup s.lockKey ≠ none) ∧
        (s.Lock o c).2 = (Store.lockAttempt o s.lockKey 10 (s.beforeAttempt o k c)).2 ∧
        ∃ cr, (s.Lock o c).2.server.kvs.lookup s.lockKey =
          some ⟨FormatInt (o.leaseID (s.beforeAttempt o k c).log.length), cr,
            o.leaseID (s.beforeAttempt o k c).log.length⟩) ∧
    (o.FaultFree →
      ((s.Lock o c).1 = none ↔
        ∃ k, k < 20 ∧ (s.beforeAttempt o k c).server.kvs.lookup s.lockKey = none)) ∧
    ((∀ k, k < 20 → (s.beforeAttempt o k c).server.kvs.lookup s.lockKey ≠ none) →
      (s.Lock o c).1 ≠ none) ∧
    (c.server.kvs.lookup s.lockKey ≠ none →
      (∀ i srv, (o.interfere i srv).kvs.lookup s.lockKey = srv.kvs.lookup s.lockKey) →
      (s.Lock o c).1 ≠ none ∧
      (s.Lock o c).2.server.kvs.lookup s.lockKey = c.server.kvs.lookup s.lockKey) := by
  have hrecord : ∀ c' : Client, (Store.lockAttempt o s.lockKey 10 c').1 = .ok true →
      c'.server.kvs.lookup s.lockKey = none ∧
      ∃ cr, (Store.lockAttempt o s.lockKey 10 c').2.server.kvs.lookup s.lockKey =
        some ⟨FormatInt (o.leaseID c'.log.length), cr, o.leaseID c'.log.length⟩ := by
    intro c' h
    obtain ⟨hg, ht, hl⟩ := lockAttempt_true s.lockKey 10 c' h
    refine ⟨hl, ?_⟩
    rw [lockAttempt_absent s.lockKey 10 c' hg ht hl]
    exact lookup_put_self _ _ _ _
  obtain ⟨hnil, hend⟩ := Lock_eq_loop s o c
  have helim : (s.Lock o c).1 = none →
      ∃ k, k < 20 ∧
        (∀ j, j < k → (Store.lockAttempt o s.lockKey 10 (s.beforeAttempt o j c)).1 = .ok false) ∧
        (Store.lockAttempt o s.lockKey 10 (s.beforeAttempt o k c)).1 = .ok true ∧
        (s.Lock o c).2 = (Store.lockAttempt o s.lockKey 10 (s.beforeAttempt o k c)).2 := by
    intro h
    obtain ⟨k, hk, hpre, htrue, hlast⟩ := lockLoop_true_elim o s.lockKey 10 20 0 c (hnil.1 h)
    exact ⟨k, hk, hpre, htrue, by rw [hend, hlast]; rfl⟩
  refine ⟨fun hg ht h => ?_, hrecord c, fun h => ?_, ⟨fun h => ?_, fun h => ?_⟩, fun h => ?_,
    fun hff => ⟨fun h => ?_, fun h => ?_⟩, fun hall h => ?_, fun h hint => ?_⟩
  · have htrue : (Store.lockAttempt o s.lockKey 10 c).1 = .ok true := by
      rw [lockAttempt_absent s.lockKey 10 c hg ht h]
    refine ⟨htrue, (hrecord c htrue).2, ?_⟩
    have hloop : Store.lockLoop o s.lockKey 10 20 0 c =
        (.ok true, (Store.lockAttempt o s.lockKey 10 c).2) := by
      rw [Store.lockLoop, lockAttempt_absent s.lockKey 10 c hg ht h]
    have hkey : s.EtcdKeyPrefix ++ "/lock" = s.lockKey := rfl
    simp only [Store.Lock, hkey, hloop]
    rfl
  · refine ⟨fun htrue => h (hrecord c htrue).1, lockAttempt_kvs s.lockKey 10 c h, ?_⟩
    intro hg ht
    rw [lockAttempt_present s.lockKey 10 c hg ht h]
  · obtain ⟨k, hk, hpre, htrue, _⟩ := helim h
    exact ⟨k, hk, hpre, htrue⟩
  · obtain ⟨k, hk, hpre, htrue⟩ := h
    exact hnil.2 (lockLoop_true_intro o s.lockKey 10 20 0 c k hk hpre htrue)
  · obtain ⟨k, hk, hpre, htrue, hlast⟩ := helim h
    refine ⟨k, hk, (hrecord _ htrue).1, hpre, ?_, hlast, ?_⟩
    · intro hff j hj habs
      have := hpre j hj
      rw [lockAttempt_absent s.lockKey 10 _ (hff _) (hff _) habs] at this
      cases this
    · rw [hlast]
      exact (hrecord _ htrue).2
  · obtain ⟨k, hk, _, htrue, _⟩ := helim h
    exact ⟨k, hk, (hrecord _ htrue).1⟩
  · obtain ⟨k, hk, habs⟩ := h
    classical
    have hex : ∃ k, k < 20 ∧ (s.beforeAttempt o k c).server.kvs.lookup s.lockKey = none :=
      ⟨k, hk, habs⟩
    have hmin := Nat.find_spec hex
    rw [Lock_acquire s hff c (Nat.find hex) hmin.1
      (fun j hj hn => Nat.find_min hex hj ⟨Nat.lt_trans hj hmin.1, hn⟩) hmin.2]
  · obtain ⟨k, hk, _, htrue, _⟩ := helim h
    exact hall k hk (hrecord _ htrue).1
  · have hkept := lockLoop_record_kept o s.lockKey 10 hint 20 0 c h
    refine ⟨fun hn => hkept.1 (hnil.1 hn), ?_⟩
    rw [hend]
    exact hkept.2

theorem Lock_acquires_only_when_absent_witness :
    freshClient.server.kvs.lookup net1.lockKey = none ∧
    net1.Lock calm freshClient = (none, (Store.lockAttempt calm net1.lockKey 10 freshClient).2) ∧
    locked.server.kvs.lookup "/etcd-cni/networks/net1/lock" = some ⟨"7000", 2, 7000⟩ ∧
    (net1.Lock calm locked).1 ≠ none ∧
    (net1.Lock calm locked).2.server.kvs.lookup net1.lockKey
      = locked.server.kvs.lookup net1.lockKey ∧
    (failAt 2 timedOut).fault locked.log.length = some timedOut ∧
    (net1.Lock (failAt 2 timedOut) locked).1 ≠ none ∧
    (net1.Lock (failAt 2 timedOut) locked).2.server.kvs.lookup net1.lockKey
      = locked.server.kvs.lookup net1.lockKey ∧
    (net1.Lock (failAt 3 timedOut) locked).1 ≠ none :=
  have h := Lock_acquires_only_when_absent net1 calm freshClient
  have h2 := (Lock_acquires_only_when_absent net1 calm locked).2.2.2.2.2.2.2
    (by decide) (fun _ _ => rfl)
  have h3 := (Lock_acquires_only_when_absent net1 (failAt 2 timedOut) locked).2.2.2.2.2.2.2
    (by decide) (fun _ _ => rfl)
  have h4 := (Lock_acquires_only_when_absent net1 (failAt 3 timedOut) locked).2.2.2.2.2.2.2
    (by decide) (fun _ _ => rfl)
  ⟨by decide, (h.1 rfl rfl (by decide)).2.2, by decide, h2.1, h2.2, by decide, h3.1, h3.2,
    h4.1⟩

/-- C10: the retry budget of `Lock`.  `Lock` is a total function; whatever the oracle
does, it issues at most 40 calls, each of them the grant of a lease with TTL 10 or the
conditional transaction on the lock key, that is at most 20 attempts.  On a fault-free
store: if the key is present at each of the 20 attempts, `Lock` returns the error
`Can not get lock`, its calls are those of exactly 20 attempts (a grant with TTL 10 and a
transaction each), and no attempt changes the key space; if attempt `k` (from 0, `k < 20`)
is the first to find the key absent, `Lock` returns `nil` and its calls are those of
exactly `k + 1` attempts. -/
theorem Lock_retry_budget (s : Store) (o : Oracle) (c : Client) :
    (∃ calls, (s.Lock o c).2.log = c.log ++ calls ∧ calls.length ≤ 2 * 20 ∧
      ∀ call ∈ calls, s.IsAttemptCall call) ∧
    (o.FaultFree →
      ((∀ k, k < 20 → (s.beforeAttempt o k c).server.kvs.lookup s.lockKey ≠ none) →
        (s.Lock o c).1 = some (.new "Can not get lock") ∧
        (s.Lock o c).2.log = c.log ++ s.attemptsLog o 20 c.log.length ∧
        (s.Lock o c).2.log.length = c.log.length + 2 * 20 ∧
        (s.Lock o c).2 = s.beforeAttempt o 20 c ∧
        ∀ k, k < 20 →
          (Store.lockAttempt o s.lockKey 10 (s.beforeAttempt o k c)).2.server.kvs
            = (s.beforeAttempt o k c).server.kvs) ∧
      (∀ k, k < 20 →
        (∀ j, j < k → (s.beforeAttempt o j c).server.kvs.lookup s.lockKey ≠ none) →
        (s.beforeAttempt o k c).server.kvs.lookup s.lockKey = none →
        (s.Lock o c).1 = none ∧
        (s.Lock o c).2.log = c.log ++ s.attemptsLog o (k + 1) c.log.length ∧
        (s.Lock o c).2.log.length = c.log.length + 2 * (k + 1) ∧
        (s.Lock o c).2 = (Store.lockAttempt o s.lockKey 10 (s.beforeAttempt o k c)).2)) := by
  constructor
  · obtain ⟨calls, hlog, hlen, hshape⟩ := lockLoop_log s o 20 0 c
    refine ⟨calls, ?_, hlen, hshape⟩
    have hkey : s.EtcdKeyPrefix ++ "/lock" = s.lockKey := rfl
    rw [← hlog]
    simp only [Store.Lock, hkey]
    rcases Store.lockLoop o s.lockKey 10 20 0 c with ⟨r, c1⟩
    cases r with
    | error e => rfl
    | ok b => cases b <;> rfl
  · intro hff
    constructor
    · intro h
      have hlog : (s.beforeAttempt o 20 c).log = c.log ++ s.attemptsLog o 20 c.log.length :=
        attemptState_log s hff 20 0 c h
      rw [Lock_timeout s hff c h]
      refine ⟨rfl, hlog, ?_, rfl, ?_⟩
      · simp only [hlog, List.length_append, attemptsLog_length]
      · intro k hk
        rw [lockAttempt_present s.lockKey 10 _ (hff _) (hff _) (h k hk)]
        rfl
    · intro k hk hpre habs
      have hlog : (Store.lockAttempt o s.lockKey 10 (s.beforeAttempt o k c)).2.log
          = c.log ++ s.attemptsLog o (k + 1) c.log.length := by
        have hk_log : (s.beforeAttempt o k c).log = c.log ++ s.attemptsLog o k c.log.length :=
          attemptState_log s hff k 0 c hpre
        rw [lockAttempt_absent s.lockKey 10 _ (hff _) (hff _) habs, attemptsLog_succ]
        simp only [hk_log, List.length_append, attemptsLog_length, Store.attemptCalls,
          List.append_assoc]
      rw [Lock_acquire s hff c k hk hpre habs]
      refine ⟨rfl, hlog, ?_, rfl⟩
      simp only [hlog, List.length_append, attemptsLog_length]

theorem Lock_retry_budget_witness :
    (freedDuring 2).FaultFree ∧
    (net1.Lock calm locked).1 = some (.new "Can not get lock") ∧
    (net1.Lock calm locked).2.log.length = locked.log.length + 40 ∧
    (net1.beforeAttempt (freedDuring 2) 3 locked).server.kvs.lookup net1.lockKey = none ∧
    (net1.Lock (freedDuring 2) locked).1 = none ∧
    (net1.Lock (freedDuring 2) locked).2.log.length = locked.log.length + 8 ∧
    (net1.Lock (freedDuring 2) locked).2.log = locked.log ++
      [.grant 10, .txn "/etcd-cni/networks/net1/lock" 0
          (.put "/etcd-cni/networks/net1/lock" "7002" 7002) (.get "/etcd-cni/networks/net1/lock"),
        .grant 10, .txn "/etcd-cni/networks/net1/lock" 0
          (.put "/etcd-cni/networks/net1/lock" "7004" 7004) (.get "/etcd-cni/networks/net1/lock"),
        .grant 10, .txn "/etcd-cni/networks/net1/lock" 0
          (.put "/etcd-cni/networks/net1/lock" "7006" 7006) (.get "/etcd-cni/networks/net1/lock"),
        .grant 10, .txn "/etcd-cni/networks/net1/lock" 0
          (.put "/etcd-cni/networks/net1/lock" "7008" 7008)
          (.get "/etcd-cni/networks/net1/lock")] :=
  have h1 := ((Lock_retry_budget net1 calm locked).2 (fun _ => rfl)).1 (by decide)
  have h2 := ((Lock_retry_budget net1 (freedDuring 2) locked).2 (fun _ => rfl)).2 3
    (by decide) (by decide) (by decide)
  ⟨fun _ => rfl, h1.1, h1.2.2.1, by decide, h2.1, h2.2.2.1, by rw [h2.2.1]; decide⟩

/-! ## Decimal text of lease identifiers -/

theorem digitChar_isDigit {d : Nat} (hd : d < 10) :
    '0' ≤ digitChar d ∧ digitChar d ≤ '9' ∧ (digitChar d).toNat - '0'.toNat = d ∧
      digitChar d ≠ '+' ∧ digitChar d ≠ '-' ∧ digitChar d ≠ '.' ∧ digitChar d ≠ ':' := by
  interval_cases d <;> decide

/-- `uitoaLoop` with room left starts its output with a digit. -/
theorem uitoaLoop_head :
    ∀ (room val : Nat) (buf : List Char),
      ∃ d rest, d < 10 ∧ uitoaLoop (room + 1) val buf = digitChar d :: rest := by
  intro room
  induction room with
  | zero =>
    intro val buf
    by_cases h : val ≥ 10
    · exact ⟨val % 10, buf, Nat.mod_lt _ (by decide), by simp [uitoaLoop, h]⟩
    · exact ⟨val, buf, by omega, by simp [uitoaLoop, h]⟩
  | succ room ih =>
    intro val buf
    by_cases h : val ≥ 10
    · obtain ⟨d, rest, hd, heq⟩ := ih (val / 10) (digitChar (val % 10) :: buf)
      exact ⟨d, rest, hd, by rw [uitoaLoop, if_pos h, heq]⟩
    · exact ⟨val, buf, by omega, by rw [uitoaLoop, if_neg h]⟩

/-- One pass of the digit loop of `ParseUint` over a digit that does not overflow. -/
theorem parseUintLoop_digit {d n : Nat} (hd : d < 10) (hn : n * 10 + d < 2 ^ 64)
    (rest : List Char) :
    parseUintLoop (digitChar d :: rest) n = parseUintLoop rest (n * 10 + d) := by
  obtain ⟨h0, h9, hv, _⟩ := digitChar_isDigit hd
  have hcut : ¬ n ≥ maxUint64 / 10 + 1 := by
    have : maxUint64 / 10 + 1 = 1844674407370955162 := by decide
    rw [this]
    have h64 : (2 : Nat) ^ 64 = 18446744073709551616 := by norm_num
    omega
  have hmod : (n * 10 + d) % 2 ^ 64 = n * 10 + d := Nat.mod_eq_of_lt hn
  have hmax : ¬ (n * 10 + d < n * 10 ∨ n * 10 + d > maxUint64) := by
    have : maxUint64 = 2 ^ 64 - 1 := rfl
    omega
  rw [parseUintLoop]
  simp only [h0, h9, and_self, if_true, hv, hcut, if_false, hmod, hmax]

/-- Reading back what `uitoaLoop` wrote. -/
theorem parseUintLoop_uitoaLoop :
    ∀ (room val : Nat) (buf : List Char), val < 10 ^ (room + 1) → val < 2 ^ 64 →
      parseUintLoop (uitoaLoop (room + 1) val buf) 0 = parseUintLoop buf val := by
  intro room
  induction room with
  | zero =>
    intro val buf h10 h64
    have hlt : val < 10 := by simpa using h10
    rw [uitoaLoop, if_neg (by omega), parseUintLoop_digit hlt (by omega)]
    simp
  | succ room ih =>
    intro val buf h10 h64
    by_cases h : val ≥ 10
    · have hq : val / 10 < 10 ^ (room + 1) := by
        rw [Nat.div_lt_iff_lt_mul (by decide)]
        rw [pow_succ] at h10
        exact h10
      rw [uitoaLoop, if_pos h, ih (val / 10) _ hq (by omega),
        parseUintLoop_digit (Nat.mod_lt _ (by decide)) (by omega)]
      congr 1
      omega
    · rw [uitoaLoop, if_neg h, parseUintLoop_digit (by omega) (by omega)]
      simp

theorem ParseUint_uitoaLoop (val : Nat) (h64 : val < 2 ^ 64) :
    ParseUint (uitoaLoop 65 val []) = (val, none) := by
  obtain ⟨d, rest, _, heq⟩ := uitoaLoop_head 64 val []
  have hlen : ¬ (uitoaLoop 65 val []).length < 1 := by rw [heq]; simp
  have h10 : val < 10 ^ 65 := by
    have : (2 : Nat) ^ 64 < 10 ^ 65 := by norm_num
    omega
  rw [ParseUint, if_neg hlen, parseUintLoop_uitoaLoop 64 val [] h10 h64]
  rfl

theorem pickSign_digit {d : Nat} (hd : d < 10) (rest : List Char) :
    pickSign (digitChar d :: rest) = (false, digitChar d :: rest) := by
  obtain ⟨_, _, _, hplus, hminus, _⟩ := digitChar_isDigit hd
  unfold pickSign
  split
  · rename_i t hm; exact absurd (List.cons.inj hm).1 hplus
  · rename_i t hm; exact absurd (List.cons.inj hm).1 hminus
  · rfl

/-- `strconv.ParseInt` undoes `strconv.FormatInt` on every `int64`. -/
theorem ParseInt_FormatInt (L : Int) (hlo : -(2 : Int) ^ 63 ≤ L) (hhi : L < (2 : Int) ^ 63) :
    ParseInt (FormatInt L) = (L, none) := by
  have h63 : (2 : Nat) ^ 63 = 9223372036854775808 := by norm_num
  have h64 : (2 : Nat) ^ 64 = 18446744073709551616 := by norm_num
  have hi63 : (2 : Int) ^ 63 = 9223372036854775808 := by norm_num
  by_cases hneg : L < 0
  · have hdata : (FormatInt L).data = '-' :: uitoaLoop 65 L.natAbs [] := by
      simp [FormatInt, hneg]
    have hun := ParseUint_uitoaLoop L.natAbs (by omega)
    have hgt : ¬ L.natAbs > 2 ^ 63 := by omega
    have hsign : pickSign ('-' :: uitoaLoop 65 L.natAbs []) = (true, uitoaLoop 65 L.natAbs []) :=
      rfl
    simp only [ParseInt, hdata, hsign, hun]
    simp only [List.length_cons, Nat.succ_ne_zero, if_false, Bool.true_eq_false, false_and,
      true_and, hgt, if_true]
    have : -((L.natAbs : Nat) : Int) = L := by omega
    rw [this]
  · have hdata : (FormatInt L).data = uitoaLoop 65 L.toNat [] := by
      simp [FormatInt, hneg]
    obtain ⟨d, rest, hd, heq⟩ := uitoaLoop_head 64 L.toNat []
    have hun := ParseUint_uitoaLoop L.toNat (by omega)
    rw [heq] at hun
    have hge : ¬ L.toNat ≥ 2 ^ 63 := by omega
    simp only [ParseInt, hdata, heq, pickSign_digit hd, hun]
    simp only [List.length_cons, Nat.succ_ne_zero, if_false, true_and, hge,
      Bool.false_eq_true, false_and]
    have : ((L.toNat : Nat) : Int) = L := by omega
    rw [this]

/-! ## Unlock -/

theorem Revoke_ok {o : Oracle} (c : Client) (id : Int) (h : o.fault c.log.length = none) :
    (c.Revoke o id).2 = ⟨(c.server.revoke id).getD c.server, c.log ++ [.revoke id]⟩ := by
  unfold Client.Revoke
  rw [h]
  cases c.server.revoke id <;> simp [Client.logged]

/-- `Unlock` on a fault-free store, case by case. -/
theorem Unlock_eq (s : Store) {o : Oracle} (hff : o.FaultFree) (c : Client) :
    s.Unlock o c =
      match c.server.kvs.lookup s.lockKey with
      | none => (none, ⟨c.server, c.log ++ [.get s.lockKey]⟩)
      | some e =>
        match ParseInt e.value with
        | (_, some err) => (some err, ⟨c.server, c.log ++ [.get s.lockKey]⟩)
        | (leaseId, none) =>
          (none, ⟨(c.server.revoke leaseId).getD c.server,
            c.log ++ [.get s.lockKey, .revoke leaseId]⟩) := by
  have hk : s.EtcdKeyPrefix ++ "/lock" = s.lockKey := rfl
  simp only [Store.Unlock, hk, Get_ok c _ (hff _), Server.range]
  cases c.server.kvs.lookup s.lockKey with
  | none => simp [Client.logged]
  | some e =>
    simp only [List.length_singleton, Nat.lt_irrefl, Nat.zero_lt_one, if_true]
    rcases hp : ParseInt e.value with ⟨v, err⟩
    cases err with
    | some err => simp [Client.logged]
    | none => simp [Revoke_ok _ _ (hff _), Client.logged]

theorem revoke_lookup {srv srv' : Server} {id : Int} (h : srv.revoke id = some srv')
    (k : String) :
    srv'.kvs.lookup k =
      if (srv.kvs.lookup k).map Entry.lease = some id then none else srv.kvs.lookup k := by
  unfold Server.revoke at h
  split at h
  · cases h
    simp only [lookup_dropLease]
    by_cases hl : (srv.kvs.lookup k).map Entry.lease = some id
    · have hmem : k ∈ srv.kvs.keys := by
        rw [← AList.mem_keys, ← AList.lookup_isSome]
        cases hk : srv.kvs.lookup k with
        | none => simp [hk] at hl
        | some e => rfl
      simp [hl, hmem]
    · simp [hl]
  · cases h

theorem revoke_leases {srv srv' : Server} {id : Int} (h : srv.revoke id = some srv') :
    id ∉ srv'.leases := by
  unfold Server.revoke at h
  split at h
  · cases h; simp
  · cases h

theorem revoke_not_live {srv : Server} {id : Int} (h : id ∉ srv.leases) :
    srv.revoke id = none := by
  simp [Server.revoke, h]

/-- A second `Unlock` right after the first one changes nothing more. -/
theorem Unlock_idempotent (s : Store) {o : Oracle} (hff : o.FaultFree) (c : Client) :
    (s.Unlock o (s.Unlock o c).2).1 = (s.Unlock o c).1 ∧
    (s.Unlock o (s.Unlock o c).2).2.server = (s.Unlock o c).2.server := by
  have h1 := Unlock_eq s hff c
  cases hl : c.server.kvs.lookup s.lockKey with
  | none =>
    simp only [hl] at h1
    rw [h1, Unlock_eq s hff]
    simp only [hl]
    simp
  | some e =>
    rcases hp : ParseInt e.value with ⟨v, err⟩
    cases err with
    | some err =>
      simp only [hl, hp] at h1
      rw [h1, Unlock_eq s hff]
      simp only [hl, hp]
      simp
    | none =>
      simp only [hl, hp] at h1
      cases hr : c.server.revoke v with
      | none =>
        simp only [hr, Option.getD_none] at h1
        rw [h1, Unlock_eq s hff]
        simp only [hl, hp, hr, Option.getD_none]
        simp
      | some srv' =>
        simp only [hr, Option.getD_some] at h1
        have hlook := revoke_lookup hr s.lockKey
        rw [h1, Unlock_eq s hff]
        by_cases hlease : (c.server.kvs.lookup s.lockKey).map Entry.lease = some v
        · rw [if_pos hlease] at hlook
          simp only [hlook]
          simp
        · rw [if_neg hlease, hl] at hlook
          simp only [hlook, hp, revoke_not_live (revoke_leases hr), Option.getD_none]
          simp

/-- C6: `Unlock` undoes `Lock` and is idempotent, on a fault-free store.  `ParseInt` reads
the text `FormatInt` writes for any `int64`, negative ones included, back as that
number.  (1) After a
`Lock` that returned `nil`, the lock record holds the decimal text of the granted lease
`L` with `L` attached; `ParseInt` reads that text back as `L`; `Unlock` returns `nil`, its
calls are the read of the lock key and the revoke of `L`, and afterwards the lock key is
absent and `L` is no longer live.  (2) When the lock key is absent `Unlock` returns `nil`
after the read alone and the server is as before; in every state a second `Unlock`
returns what the first returned and leaves the server as the first left it.  (3) When the
key holds text that `ParseInt` rejects, `Unlock` returns that `ParseInt` error after the
read alone: no revoke is issued and the server is as before. -/
theorem Unlock_undoes_Lock (s : Store) (o : Oracle) (hff : o.FaultFree) (c : Client) :
    (∀ L : Int, -(2 : Int) ^ 63 ≤ L → L < (2 : Int) ^ 63 → ParseInt (FormatInt L) = (L, none)) ∧
    (o.GrantsLeases → (s.Lock o c).1 = none →
      ∃ L, (s.Lock o c).2.server.value? s.lockKey = some (FormatInt L) ∧
        (s.Lock o c).2.server.lease? s.lockKey = some L ∧
        ParseInt (FormatInt L) = (L, none) ∧
        (s.Unlock o (s.Lock o c).2).1 = none ∧
        (s.Unlock o (s.Lock o c).2).2.log
          = (s.Lock o c).2.log ++ [.get s.lockKey, .revoke L] ∧
        (s.Unlock o (s.Lock o c).2).2.server.kvs.lookup s.lockKey = none ∧
        L ∉ (s.Unlock o (s.Lock o c).2).2.server.leases) ∧
    (c.server.kvs.lookup s.lockKey = none →
      s.Unlock o c = (none, ⟨c.server, c.log ++ [.get s.lockKey]⟩)) ∧
    ((s.Unlock o (s.Unlock o c).2).1 = (s.Unlock o c).1 ∧
      (s.Unlock o (s.Unlock o c).2).2.server = (s.Unlock o c).2.server) ∧
    (∀ e v err, c.server.kvs.lookup s.lockKey = some e → ParseInt e.value = (v, some err) →
      s.Unlock o c = (some err, ⟨c.server, c.log ++ [.get s.lockKey]⟩) ∧
      ∃ kind, err = .num "ParseInt" e.value kind) := by
  refine ⟨ParseInt_FormatInt, fun hgr hnil => ?_, fun h => ?_, Unlock_idempotent s hff c,
    fun e v err hl hp => ?_⟩
  · obtain ⟨k, hk, habs, hpre⟩ := Lock_nil_first_absent s hff c hnil
    have hL := hgr (s.beforeAttempt o k c).log.length
    generalize hLdef : o.leaseID (s.beforeAttempt o k c).log.length = L at hL
    have hlock : (s.Lock o c).2 =
        ⟨((s.beforeAttempt o k c).server.grant L).put s.lockKey (FormatInt L) L,
          (s.beforeAttempt o k c).log ++ [.grant 10, .txn s.lockKey 0
            (.put s.lockKey (FormatInt L) L) (.get s.lockKey)]⟩ := by
      rw [Lock_acquire s hff c k hk hpre habs,
        lockAttempt_absent s.lockKey 10 _ (hff _) (hff _) habs, hLdef]
    obtain ⟨cr, hcr⟩ := lookup_put_self ((s.beforeAttempt o k c).server.grant L) s.lockKey
      (FormatInt L) L
    have hparse := ParseInt_FormatInt L hL.2.1 hL.2.2
    have hlive : L ∈ (((s.beforeAttempt o k c).server.grant L).put s.lockKey
        (FormatInt L) L).leases := by
      simp [leases_put, Server.grant]
    have hrev : ∃ srv', (((s.beforeAttempt o k c).server.grant L).put s.lockKey
        (FormatInt L) L).revoke L = some srv' := by
      simp [Server.revoke, hL.1, hlive]
    obtain ⟨srv', hsrv'⟩ := hrev
    have hun := Unlock_eq s hff (s.Lock o c).2
    rw [hlock] at hun ⊢
    simp only [hcr, hparse, hsrv', Option.getD_some] at hun
    refine ⟨L, by simp [Server.value?, hcr], by simp [Server.lease?, hcr], hparse, ?_, ?_, ?_, ?_⟩
    · rw [hun]
    · rw [hun]
    · rw [hun]
      simp only
      rw [revoke_lookup hsrv' s.lockKey, hcr]
      simp
    · rw [hun]
      exact revoke_leases hsrv'
  · rw [Unlock_eq s hff c, h]
  · refine ⟨by rw [Unlock_eq s hff c, hl]; simp only [hp], ?_⟩
    unfold ParseInt at hp
    split at hp
    · cases hp; exact ⟨_, rfl⟩
    · simp only at hp
      split at hp
      · cases hp; exact ⟨_, rfl⟩
      · split at hp
        · cases hp; exact ⟨_, rfl⟩
        · split at hp
          · cases hp; exact ⟨_, rfl⟩
          · cases hp

theorem Unlock_undoes_Lock_witness :
    negative.FaultFree ∧ negative.GrantsLeases ∧
    (net1.Lock negative freshClient).1 = none ∧
    (net1.Lock negative freshClient).2.server.kvs.lookup "/etcd-cni/networks/net1/lock"
      = some ⟨"-9000", 2, -9000⟩ ∧
    (net1.Unlock negative (net1.Lock negative freshClient).2).1 = none ∧
    (net1.Unlock negative (net1.Lock negative freshClient).2).2.server.kvs.lookup
      net1.lockKey = none ∧
    (net1.Unlock negative (net1.Lock negative freshClient).2).2.log =
      (net1.Lock negative freshClient).2.log ++
        [.get "/etcd-cni/networks/net1/lock", .revoke (-9000)] ∧
    net1.Unlock negative freshClient = (none, ⟨emptyServer, [.get net1.lockKey]⟩) ∧
    (∃ L, (net1.Lock negative freshClient).2.server.value? net1.lockKey = some (FormatInt L) ∧
      (net1.Lock negative freshClient).2.server.lease? net1.lockKey = some L ∧
      ParseInt (FormatInt L) = (L, none) ∧
      (net1.Unlock negative (net1.Lock negative freshClient).2).1 = none ∧
      (net1.Unlock negative (net1.Lock negative freshClient).2).2.log
        = (net1.Lock negative freshClient).2.log ++ [.get net1.lockKey, .revoke L] ∧
      (net1.Unlock negative (net1.Lock negative freshClient).2).2.server.kvs.lookup
        net1.lockKey = none ∧
      L ∉ (net1.Unlock negative (net1.Lock negative freshClient).2).2.server.leases) ∧
    net1.Unlock negative garbled =
      (some (.num "ParseInt" "not-a-lease" .ErrSyntax),
        ⟨garbled.server, [.get net1.lockKey]⟩) :=
  have hff : negative.FaultFree := fun _ => rfl
  have hgr : negative.GrantsLeases := fun n => by
    have hn : n % 100 < 100 := Nat.mod_lt n (by decide)
    have h63 : (2 : Int) ^ 63 = 9223372036854775808 := by norm_num
    simp only [negative, Oracle.quiet, h63]
    omega
  have h := Unlock_undoes_Lock net1 negative hff freshClient
  have h3 := (Unlock_undoes_Lock net1 negative hff garbled).2.2.2.2
    ⟨"not-a-lease", 2, 0⟩ 0 (.num "ParseInt" "not-a-lease" .ErrSyntax) (by decide) (by decide)
  ⟨hff, hgr, by decide, by decide, by decide, by decide, by decide, h.2.2.1 (by decide),
    h.2.1 hgr (by decide), h3.1⟩

/-! ## LastReservedIP -/

/-- C5, counterexample: the last-reserved pointer of `range0` holds `garbage`, which
`net.ParseIP` rejects, the read succeeds, and `LastReservedIP` returns a `nil` address
with a `nil` error. -/
theorem LastReservedIP_malformed_without_error :
    calm.fault malformed.log.length = none ∧
    malformed.server.value? "/etcd-cni/networks/net1/lastReserved/range0" = some "garbage" ∧
    ParseIP "garbage" = [] ∧
    (net1.LastReservedIP calm malformed "range0").1 = ([], none) := by
  decide

/-- C5, amended: `LastReservedIP` returns the error of a failed read; it returns the error
`Can not find last reserved ip` when the key is absent; when the key is present it
returns `net.ParseIP` of the stored value with a `nil` error, whatever the value.  So the
error is `nil` exactly when the read succeeds and the key is present. -/
theorem LastReservedIP_results (s : Store) (o : Oracle) (c : Client) (rangeID : String) :
    (∀ e, o.fault c.log.length = some e →
      (s.LastReservedIP o c rangeID).1 = ([], some e)) ∧
    (o.fault c.log.length = none → c.server.kvs.lookup (s.lastReservedKey rangeID) = none →
      (s.LastReservedIP o c rangeID).1 = ([], some (.new "Can not find last reserved ip"))) ∧
    (∀ e, o.fault c.log.length = none →
      c.server.kvs.lookup (s.lastReservedKey rangeID) = some e →
      (s.LastReservedIP o c rangeID).1 = (ParseIP e.value, none)) ∧
    ((s.LastReservedIP o c rangeID).1.2 = none ↔
      o.fault c.log.length = none ∧ c.server.kvs.lookup (s.lastReservedKey rangeID) ≠ none) := by
  refine ⟨fun e he => ?_, fun hf hl => ?_, fun e hf hl => ?_, ?_⟩
  · simp [Store.LastReservedIP, Client.Get, he]
  · rw [LastReservedIP_eq s o c rangeID hf, hl]
  · rw [LastReservedIP_eq s o c rangeID hf, hl]
  · cases hf : o.fault c.log.length with
    | some e => simp [Store.LastReservedIP, Client.Get, hf]
    | none =>
      rw [LastReservedIP_eq s o c rangeID hf]
      cases c.server.kvs.lookup (s.lastReservedKey rangeID) <;> simp

theorem LastReservedIP_results_witness :
    calm.fault threeHeld.log.length = none ∧
    (net1.LastReservedIP calm threeHeld "range0").1 = (IPv4 10 0 0 9, none) ∧
    (net1.LastReservedIP calm threeHeld "range1").1
      = ([], some (.new "Can not find last reserved ip")) ∧
    (net1.LastReservedIP (failAt 9 timedOut) threeHeld "range0").1 = ([], some timedOut) :=
  have h := LastReservedIP_results net1 calm threeHeld "range0"
  ⟨rfl,
    (h.2.2.1 ⟨"10.0.0.9", 3, 0⟩ rfl (by decide)).trans (by decide),
    (LastReservedIP_results net1 calm threeHeld "range1").2.1 rfl (by decide),
    (LastReservedIP_results net1 (failAt 9 timedOut) threeHeld "range0").1 timedOut
      (by decide)⟩

/-! ## Address text: writing and reading back -/

theorem uitoaLoop_append :
    ∀ (room val : Nat) (buf : List Char), uitoaLoop room val buf = uitoaLoop room val [] ++ buf := by
  intro room
  induction room with
  | zero => intro val buf; simp [uitoaLoop]
  | succ room ih =>
    intro val buf
    by_cases h : val ≥ 10
    · rw [uitoaLoop, if_pos h, ih, uitoaLoop, if_pos h, ih (val / 10) [digitChar (val % 10)]]
      simp
    · rw [uitoaLoop, if_neg h, uitoaLoop, if_neg h]
      simp

theorem uitoa_append (n : Nat) (tail : List Char) : uitoa n ++ tail = uitoaLoop 20 n tail := by
  rw [uitoaLoop_append 20 n tail]
  by_cases h : n = 0
  · subst h; rfl
  · simp [uitoa, h]

/-- One pass of the loop of `dtoi` over a digit. -/
theorem dtoiLoop_digit {d n : Nat} (hd : d < 10) (hn : n * 10 + d < big) (rest : List Char)
    (i : Nat) :
    dtoiLoop (digitChar d :: rest) n i = dtoiLoop rest (n * 10 + d) (i + 1) := by
  obtain ⟨h0, h9, hv, _⟩ := digitChar_isDigit hd
  rw [dtoiLoop]
  simp only [h0, h9, and_self, if_true, hv, Nat.not_le.2 hn, if_false, ge_iff_le]

theorem dtoiLoop_uitoaLoop :
    ∀ (room val : Nat) (buf : List Char), val < 10 ^ (room + 1) → val < big →
      ∃ k, 0 < k ∧ dtoiLoop (uitoaLoop (room + 1) val buf) 0 0 = dtoiLoop buf val k := by
  intro room
  induction room with
  | zero =>
    intro val buf h10 hbig
    have hlt : val < 10 := by simpa using h10
    refine ⟨1, Nat.one_pos, ?_⟩
    rw [uitoaLoop, if_neg (by omega), dtoiLoop_digit hlt (by simpa using hbig)]
    simp
  | succ room ih =>
    intro val buf h10 hbig
    by_cases h : val ≥ 10
    · have hq : val / 10 < 10 ^ (room + 1) := by
        rw [Nat.div_lt_iff_lt_mul (by decide)]
        rw [pow_succ] at h10
        exact h10
      obtain ⟨k, hk, heq⟩ := ih (val / 10) (digitChar (val % 10) :: buf) hq (by omega)
      refine ⟨k + 1, Nat.succ_pos _, ?_⟩
      have hval : val / 10 * 10 + val % 10 = val := by omega
      rw [uitoaLoop, if_pos h, heq,
        dtoiLoop_digit (Nat.mod_lt _ (by decide)) (by rw [hval]; exact hbig), hval]
    · refine ⟨1, Nat.one_pos, ?_⟩
      rw [uitoaLoop, if_neg h, dtoiLoop_digit (by omega) (by simpa using hbig)]
      simp

/-- `dtoi` reads an octet written by `uitoa` and stops at the end or at the dot. -/
theorem dtoi_uitoaLoop (n : Nat) (hn : n < 256) (tail : List Char)
    (htail : tail = [] ∨ ∃ r, tail = '.' :: r) :
    ∃ k, dtoi (uitoaLoop 20 n tail) = (n, k, true, tail) := by
  have h10 : n < 10 ^ (19 + 1) := by
    have : (256 : Nat) < 10 ^ 20 := by norm_num
    omega
  have hbig : n < big := by
    have : big = 16777215 := rfl
    omega
  obtain ⟨k, hk, heq⟩ := dtoiLoop_uitoaLoop 19 n tail h10 hbig
  have hstop : dtoiLoop tail n k = (n, k, true, tail) := by
    have hk0 : k ≠ 0 := by omega
    rcases htail with rfl | ⟨r, rfl⟩
    · simp [dtoiLoop, hk0]
    · rw [dtoiLoop, if_neg (by decide)]
      simp [hk0]
  refine ⟨k, ?_⟩
  have hk0 : k ≠ 0 := by omega
  simp only [dtoi, heq, hstop, hk0, if_false]

/-- The scan of `ParseIP` for the first `.` or `:` steps over what `uitoa` wrote. -/
theorem ParseIPChars_uitoaLoop (s : List Char) :
    ∀ (room val : Nat) (buf : List Char),
      ParseIPChars s (uitoaLoop (room + 1) val buf) = ParseIPChars s buf := by
  have hstep : ∀ d, d < 10 → ∀ buf,
      ParseIPChars s (digitChar d :: buf) = ParseIPChars s buf := by
    intro d hd buf
    obtain ⟨_, _, _, _, _, hdot, hcolon⟩ := digitChar_isDigit hd
    rw [ParseIPChars, if_neg hdot, if_neg hcolon]
  intro room
  induction room with
  | zero =>
    intro val buf
    by_cases h : val ≥ 10
    · rw [uitoaLoop, if_pos h, uitoaLoop, hstep _ (Nat.mod_lt _ (by decide))]
    · rw [uitoaLoop, if_neg h, hstep _ (by omega)]
  | succ room ih =>
    intro val buf
    by_cases h : val ≥ 10
    · rw [uitoaLoop, if_pos h, ih, hstep _ (Nat.mod_lt _ (by decide))]
    · rw [uitoaLoop, if_neg h, hstep _ (by omega)]

theorem toByte_val (a : Byte) : toByte a.val = a := by
  apply Fin.ext
  simp [toByte, Nat.mod_eq_of_lt a.isLt]

theorem parseIPv4Loop_first (k n : Nat) (hn : n < 256) (tail : List Char)
    (htail : tail = [] ∨ ∃ r, tail = '.' :: r) :
    parseIPv4Loop (k + 1) (uitoaLoop 20 n tail) [] = parseIPv4Loop k tail [toByte n] := by
  obtain ⟨d, rest, hd, heq⟩ := uitoaLoop_head 19 n tail
  obtain ⟨i, hi⟩ := dtoi_uitoaLoop n hn tail htail
  have hne : uitoaLoop 20 n tail ≠ [] := by rw [heq]; simp
  have hle : ¬ n > 255 := by omega
  rw [parseIPv4Loop, if_neg hne]
  · simp only [List.length_nil, gt_iff_lt, Nat.lt_irrefl, if_false, hi]
    simp [hle]
  · intro t ht
    rw [heq] at ht
    exact (digitChar_isDigit hd).2.2.2.2.2.1 (List.cons.inj ht).1

theorem parseIPv4Loop_next (k n : Nat) (hn : n < 256) (tail : List Char)
    (htail : tail = [] ∨ ∃ r, tail = '.' :: r) (p : List Byte) (hp : p.length > 0) :
    parseIPv4Loop (k + 1) ('.' :: uitoaLoop 20 n tail) p =
      parseIPv4Loop k tail (p ++ [toByte n]) := by
  obtain ⟨i, hi⟩ := dtoi_uitoaLoop n hn tail htail
  have hle : ¬ n > 255 := by omega
  rw [parseIPv4Loop, if_neg (by simp)]
  simp [hp, hi, hle]

/-- `parseIPv4` reads back the dotted text of four octets. -/
theorem parseIPv4_dotted (a b c d : Byte) :
    parseIPv4 (uitoaLoop 20 a.val ('.' :: uitoaLoop 20 b.val ('.' :: uitoaLoop 20 c.val
      ('.' :: uitoaLoop 20 d.val [])))) = IPv4 a b c d := by
  rw [parseIPv4, parseIPv4Loop_first 3 a.val a.isLt _ (Or.inr ⟨_, rfl⟩),
    parseIPv4Loop_next 2 b.val b.isLt _ (Or.inr ⟨_, rfl⟩) _ (by simp),
    parseIPv4Loop_next 1 c.val c.isLt _ (Or.inr ⟨_, rfl⟩) _ (by simp),
    parseIPv4Loop_next 0 d.val d.isLt _ (Or.inl rfl) _ (by simp)]
  simp [parseIPv4Loop, toByte_val]

theorem dotted_eq (a b c d : Byte) :
    uitoa a.val ++ '.' :: uitoa b.val ++ '.' :: uitoa c.val ++ '.' :: uitoa d.val =
      uitoaLoop 20 a.val ('.' :: uitoaLoop 20 b.val ('.' :: uitoaLoop 20 c.val
        ('.' :: uitoaLoop 20 d.val []))) := by
  rw [← uitoa_append d.val [], ← uitoa_append c.val, ← uitoa_append b.val,
    ← uitoa_append a.val]
  simp

/-- `ParseIP` reads the dotted text of four octets as their 16-byte address. -/
theorem ParseIP_dotted (a b c d : Byte) :
    ParseIP ⟨uitoa a.val ++ '.' :: uitoa b.val ++ '.' :: uitoa c.val ++ '.' :: uitoa d.val⟩
      = IPv4 a b c d := by
  simp only [ParseIP, dotted_eq]
  rw [ParseIPChars_uitoaLoop, ParseIPChars, if_pos rfl, parseIPv4_dotted]

theorem String_v4 (a b c d : Byte) :
    IP.String [a, b, c, d] =
      ⟨uitoa a.val ++ '.' :: uitoa b.val ++ '.' :: uitoa c.val ++ '.' :: uitoa d.val⟩ := by
  simp [IP.String, IP.To4]

theorem String_mapped (a b c d : Byte) :
    IP.String (IPv4 a b c d) =
      ⟨uitoa a.val ++ '.' :: uitoa b.val ++ '.' :: uitoa c.val ++ '.' :: uitoa d.val⟩ := by
  simp [IP.String, IP.To4, IPv4, v4InV6Prefix]

theorem hexDigit_not_separator {d : Nat} (hd : d < 16) :
    hexDigit d ≠ '.' ∧ hexDigit d ≠ ':' := by
  interval_cases d <;> decide

theorem ParseIPChars_hexString (s : List Char) :
    ∀ b : List Byte, ParseIPChars s (hexString b) = [] := by
  intro b
  induction b with
  | nil => rfl
  | cons x b ih =>
    have h1 := hexDigit_not_separator (Nat.div_lt_of_lt_mul (show x.val < 16 * 16 from x.isLt))
    have h2 := hexDigit_not_separator (Nat.mod_lt x.val (show 16 > 0 by decide))
    have hx : hexString (x :: b) =
        hexDigit (x.val / 16) :: hexDigit (x.val % 16) :: hexString b := by
      simp [hexString]
    rw [hx, ParseIPChars, if_neg h1.1, if_neg h1.2, ParseIPChars, if_neg h2.1, if_neg h2.2, ih]

/-- The text of a `net.IP` whose length is none of 0, 4 and 16 is not an address. -/
theorem ParseIP_String_other (ip : IP) (h0 : ip.length ≠ 0) (h4 : ip.length ≠ 4)
    (h16 : ip.length ≠ 16) : ParseIP ip.String = [] := by
  have hs : ip.String = ⟨'?' :: hexString ip⟩ := by
    simp [IP.String, IP.To4, h0, h4, h16]
  rw [hs]
  simp only [ParseIP]
  rw [ParseIPChars, if_neg (by decide), if_neg (by decide), ParseIPChars_hexString]

/-- C4, counterexample: `Reserve` accepts the three-byte `net.IP` `[1, 2, 3]` and returns
`(true, nil)`; `LastReservedIP` then returns a `nil` address with a `nil` error, not the
address reserved. -/
theorem LastReservedIP_after_Reserve_not_addr :
    calm.FaultFree ∧
    (net1.Reserve calm freshClient "containerA" threeBytes "range0").1 = (true, none) ∧
    (net1.Reserve calm freshClient "containerA" threeBytes "range0").2.server.value?
      "/etcd-cni/networks/net1/lastReserved/range0" = some "?010203" ∧
    (net1.LastReservedIP calm
      (net1.Reserve calm freshClient "containerA" threeBytes "range0").2 "range0").1
      = ([], none) ∧
    ([] : IP) ≠ threeBytes :=
  ⟨fun _ => rfl, by decide, by decide, by decide, by decide⟩

/-! ## IPv6 text: writing and reading back -/

theorem hexDigit_value {d : Nat} (hd : d < 16) :
    (if '0' ≤ hexDigit d ∧ hexDigit d ≤ '9' then some ((hexDigit d).toNat - '0'.toNat)
      else if 'a' ≤ hexDigit d ∧ hexDigit d ≤ 'f' then
        some ((hexDigit d).toNat - 'a'.toNat + 10)
      else if 'A' ≤ hexDigit d ∧ hexDigit d ≤ 'F' then
        some ((hexDigit d).toNat - 'A'.toNat + 10)
      else none) = some d := by
  interval_cases d <;> decide

/-- One pass of the loop of `xtoi` over a hexadecimal digit. -/
theorem xtoiLoop_hexDigit {d n : Nat} (hd : d < 16) (hn : n * 16 + d < big)
    (rest : List Char) (i : Nat) :
    xtoiLoop (hexDigit d :: rest) n i = xtoiLoop rest (n * 16 + d) (i + 1) := by
  rw [xtoiLoop]
  simp only [hexDigit_value hd, Nat.not_le.2 hn, if_false, ge_iff_le]

/-- The loop of `xtoi` stops at the end of the text and at a colon. -/
theorem xtoiLoop_stop (tail : List Char) (htail : tail = [] ∨ ∃ r, tail = ':' :: r)
    (n i : Nat) : xtoiLoop tail n i = (n, i, decide (i ≠ 0), tail) := by
  rcases htail with rfl | ⟨r, rfl⟩
  · simp [xtoiLoop]
  · rw [xtoiLoop]
    have h : (if '0' ≤ ':' ∧ ':' ≤ '9' then some (':'.toNat - '0'.toNat)
      else if 'a' ≤ ':' ∧ ':' ≤ 'f' then some (':'.toNat - 'a'.toNat + 10)
      else if 'A' ≤ ':' ∧ ':' ≤ 'F' then some (':'.toNat - 'A'.toNat + 10)
      else none) = none := by decide
    simp only [h]

/-- The digits `appendHex` writes for a group. -/
theorem appendHex_cases (g : Nat) (hg : g < 65536) :
    appendHex g =
      if g < 16 then [hexDigit g]
      else if g < 256 then [hexDigit (g / 16), hexDigit (g % 16)]
      else if g < 4096 then [hexDigit (g / 256), hexDigit (g / 16 % 16), hexDigit (g % 16)]
      else [hexDigit (g / 4096), hexDigit (g / 256 % 16), hexDigit (g / 16 % 16),
        hexDigit (g % 16)] := by
  have e3 : (16 : Nat) ^ 3 = 4096 := by norm_num
  have e2 : (16 : Nat) ^ 2 = 256 := by norm_num
  have e1 : (16 : Nat) ^ 1 = 16 := by norm_num
  have e0 : (16 : Nat) ^ 0 = 1 := by norm_num
  by_cases h0 : g = 0
  · subst h0; rfl
  · have b0 : decide (g / 1 > 0) = true := decide_eq_true (by omega)
    rw [appendHex, if_neg h0]
    simp only [List.filter_cons, List.filter_nil, e3, e2, e1, e0, b0, if_true]
    by_cases h16 : g < 16
    · have b3 : decide (g / 4096 > 0) = false := decide_eq_false (by omega)
      have b2 : decide (g / 256 > 0) = false := decide_eq_false (by omega)
      have b1 : decide (g / 16 > 0) = false := decide_eq_false (by omega)
      have m0 : g % 16 = g := Nat.mod_eq_of_lt h16
      simp only [b3, b2, b1, h16, if_true, List.map, e0, Nat.div_one, m0]
    · by_cases h256 : g < 256
      · have b3 : decide (g / 4096 > 0) = false := decide_eq_false (by omega)
        have b2 : decide (g / 256 > 0) = false := decide_eq_false (by omega)
        have b1 : decide (g / 16 > 0) = true := decide_eq_true (by omega)
        have m1 : g / 16 % 16 = g / 16 := Nat.mod_eq_of_lt (by omega)
        simp only [b3, b2, b1, h16, h256, if_true, if_false, List.map, e1, e0, Nat.div_one, m1]
      · by_cases h4096 : g < 4096
        · have b3 : decide (g / 4096 > 0) = false := decide_eq_false (by omega)
          have b2 : decide (g / 256 > 0) = true := decide_eq_true (by omega)
          have b1 : decide (g / 16 > 0) = true := decide_eq_true (by omega)
          have m2 : g / 256 % 16 = g / 256 := Nat.mod_eq_of_lt (by omega)
          simp only [b3, b2, b1, h16, h256, h4096, if_true, if_false, List.map, e2, e1, e0,
            Nat.div_one, m2]
        · have b3 : decide (g / 4096 > 0) = true := decide_eq_true (by omega)
          have b2 : decide (g / 256 > 0) = true := decide_eq_true (by omega)
          have b1 : decide (g / 16 > 0) = true := decide_eq_true (by omega)
          have m3 : g / 4096 % 16 = g / 4096 := Nat.mod_eq_of_lt (by omega)
          simp only [b3, b2, b1, h16, h256, h4096, if_true, if_false, List.map, e3, e2, e1, e0,
            Nat.div_one, m3]

/-- `xtoi` reads a group written by `appendHex` and stops at the end or at the colon. -/
theorem xtoi_appendHex (g : Nat) (hg : g < 65536) (tail : List Char)
    (htail : tail = [] ∨ ∃ r, tail = ':' :: r) :
    ∃ k, xtoi (appendHex g ++ tail) = (g, k, true, tail) := by
  have hbig : big = 16777215 := rfl
  have hloop : ∃ k, k ≠ 0 ∧ xtoiLoop (appendHex g ++ tail) 0 0 = (g, k, true, tail) := by
    rw [appendHex_cases g hg]
    by_cases h16 : g < 16
    · refine ⟨1, by decide, ?_⟩
      simp only [h16, if_true, List.cons_append, List.nil_append]
      rw [xtoiLoop_hexDigit h16 (by omega), xtoiLoop_stop tail htail]
      simp
    · by_cases h256 : g < 256
      · refine ⟨2, by decide, ?_⟩
        simp only [h16, h256, if_true, if_false, List.cons_append, List.nil_append]
        rw [xtoiLoop_hexDigit (by omega) (by omega),
          xtoiLoop_hexDigit (Nat.mod_lt _ (by decide)) (by omega), xtoiLoop_stop tail htail]
        simp only [Nat.zero_mul, Nat.zero_add, Prod.mk.injEq, and_true]
        exact ⟨by omega, by decide⟩
      · by_cases h4096 : g < 4096
        · refine ⟨3, by decide, ?_⟩
          simp only [h16, h256, h4096, if_true, if_false, List.cons_append, List.nil_append]
          rw [xtoiLoop_hexDigit (by omega) (by omega),
            xtoiLoop_hexDigit (Nat.mod_lt _ (by decide)) (by omega),
            xtoiLoop_hexDigit (Nat.mod_lt _ (by decide)) (by omega), xtoiLoop_stop tail htail]
          simp only [Nat.zero_mul, Nat.zero_add, Prod.mk.injEq, and_true]
          exact ⟨by omega, by decide⟩
        · refine ⟨4, by decide, ?_⟩
          simp only [h16, h256, h4096, if_false, List.cons_append, List.nil_append]
          rw [xtoiLoop_hexDigit (by omega) (by omega),
            xtoiLoop_hexDigit (Nat.mod_lt _ (by decide)) (by omega),
            xtoiLoop_hexDigit (Nat.mod_lt _ (by decide)) (by omega),
            xtoiLoop_hexDigit (Nat.mod_lt _ (by decide)) (by omega), xtoiLoop_stop tail htail]
          simp only [Nat.zero_mul, Nat.zero_add, Prod.mk.injEq, and_true]
          exact ⟨by omega, by decide⟩
  obtain ⟨k, hk, heq⟩ := hloop
  exact ⟨k, by simp only [xtoi, heq, hk, if_false]⟩

/-- The text of a group starts with a hexadecimal digit. -/
theorem appendHex_head (g : Nat) (hg : g < 65536) :
    ∃ d rest, d < 16 ∧ appendHex g = hexDigit d :: rest := by
  rw [appendHex_cases g hg]
  by_cases h16 : g < 16
  · exact ⟨g, [], h16, by simp [h16]⟩
  · by_cases h256 : g < 256
    · exact ⟨g / 16, [hexDigit (g % 16)], by omega,
        by simp only [h16, h256, if_true, if_false]⟩
    · by_cases h4096 : g < 4096
      · exact ⟨g / 256, [hexDigit (g / 16 % 16), hexDigit (g % 16)], by omega,
          by simp only [h16, h256, h4096, if_true, if_false]⟩
      · exact ⟨g / 4096, [hexDigit (g / 256 % 16), hexDigit (g / 16 % 16), hexDigit (g % 16)],
          by omega, by simp only [h16, h256, h4096, if_false]⟩

/-- The scan of `ParseIP` for the first `.` or `:` steps over the text of a group. -/
theorem ParseIPChars_appendHex (s : List Char) (g : Nat) (hg : g < 65536) (tail : List Char) :
    ParseIPChars s (appendHex g ++ tail) = ParseIPChars s tail := by
  have hstep : ∀ d, d < 16 → ∀ buf,
      ParseIPChars s (hexDigit d :: buf) = ParseIPChars s buf := by
    intro d hd buf
    rw [ParseIPChars, if_neg (hexDigit_not_separator hd).1,
      if_neg (hexDigit_not_separator hd).2]
  have hm : ∀ n : Nat, n % 16 < 16 := fun n => Nat.mod_lt _ (by decide)
  rw [appendHex_cases g hg]
  by_cases h16 : g < 16
  · simp only [h16, if_true, List.cons_append, List.nil_append]
    rw [hstep _ h16]
  · by_cases h256 : g < 256
    · simp only [h16, h256, if_true, if_false, List.cons_append, List.nil_append]
      rw [hstep _ (by omega), hstep _ (hm _)]
    · by_cases h4096 : g < 4096
      · simp only [h16, h256, h4096, if_true, if_false, List.cons_append, List.nil_append]
        rw [hstep _ (by omega), hstep _ (hm _), hstep _ (hm _)]
      · simp only [h16, h256, h4096, if_false, List.cons_append, List.nil_append]
        rw [hstep _ (by omega), hstep _ (hm _), hstep _ (hm _), hstep _ (hm _)]

/-- One pass of the loop of `parseIPv6` over a group written by `appendHex`. -/
theorem parseIPv6Loop_step (fuel g : Nat) (hg : g < 65536) (ip : List Byte)
    (hip : ip.length < 16) (ellipsis : Option Nat) (tail : List Char)
    (htail : tail = [] ∨ ∃ r, tail = ':' :: r) :
    parseIPv6Loop (fuel + 1) (appendHex g ++ tail) ip ellipsis =
      match tail with
      | [] => some (ip ++ [toByte (g / 256), toByte g], ellipsis, [])
      | c :: t =>
        if c ≠ ':' ∨ t = [] then none
        else if t.head? = some ':' then
          if ellipsis.isSome then none
          else if t.tail = [] then
            some (ip ++ [toByte (g / 256), toByte g],
              some (ip ++ [toByte (g / 256), toByte g]).length, [])
          else parseIPv6Loop fuel t.tail (ip ++ [toByte (g / 256), toByte g])
            (some (ip ++ [toByte (g / 256), toByte g]).length)
        else parseIPv6Loop fuel t (ip ++ [toByte (g / 256), toByte g]) ellipsis := by
  obtain ⟨k, hx⟩ := xtoi_appendHex g hg tail htail
  have hle : ¬ g > 65535 := by omega
  have hdot : ¬ tail.head? = some '.' := by
    rcases htail with rfl | ⟨r, rfl⟩
    · simp
    · simp
  rw [parseIPv6Loop]
  simp only [hip, not_true, if_false, hx, hle, or_false, Bool.true_eq_false, hdot]
  rcases htail with rfl | ⟨r, rfl⟩
  · rfl
  · rfl

theorem head?_appendHex_append (g : Nat) (hg : g < 65536) (tail : List Char) :
    appendHex g ++ tail ≠ [] ∧ (appendHex g ++ tail).head? ≠ some ':' := by
  obtain ⟨d, rest, hd, heq⟩ := appendHex_head g hg
  rw [heq]
  refine ⟨by simp, ?_⟩
  simp only [List.cons_append, List.head?_cons, ne_eq, Option.some.injEq]
  exact (hexDigit_not_separator hd).2

/-- The loop of `parseIPv6` reads groups separated by single colons to the end. -/
theorem parseIPv6Loop_groups :
    ∀ (gs : List Nat) (g : Nat) (ip : List Byte) (fuel : Nat) (ellipsis : Option Nat),
      (∀ x ∈ g :: gs, x < 65536) → ip.length + 2 * (gs.length + 1) ≤ 16 →
      gs.length + 1 ≤ fuel →
      parseIPv6Loop fuel (appendHex g ++ sepGroups gs) ip ellipsis =
        some (ip ++ groupBytes (g :: gs), ellipsis, []) := by
  intro gs
  induction gs with
  | nil =>
    intro g ip fuel ellipsis hall hlen hfuel
    obtain ⟨f, rfl⟩ : ∃ f, fuel = f + 1 := ⟨fuel - 1, by simp at hfuel; omega⟩
    rw [sepGroups, parseIPv6Loop_step f g (hall g (List.mem_cons_self _ _)) ip
      (by simp at hlen; omega) ellipsis [] (Or.inl rfl)]
    rfl
  | cons h t ih =>
    intro g ip fuel ellipsis hall hlen hfuel
    obtain ⟨f, rfl⟩ : ∃ f, fuel = f + 1 := ⟨fuel - 1, by simp at hfuel; omega⟩
    have hh : h < 65536 := hall h (by simp)
    obtain ⟨hne, hhead⟩ := head?_appendHex_append h hh (sepGroups t)
    simp only [List.length_cons] at hlen hfuel
    rw [sepGroups, parseIPv6Loop_step f g (hall g (List.mem_cons_self _ _)) ip
      (by omega) ellipsis _ (Or.inr ⟨_, rfl⟩)]
    simp only [ne_eq, not_true, hne, or_self, if_false, hhead]
    rw [ih h _ f ellipsis (fun x hx => hall x (List.mem_cons_of_mem _ hx))
      (by simp only [List.length_append, List.length_cons, List.length_nil]; omega) (by omega)]
    simp [groupBytes]

theorem joinGroups_eq_nil (post : List Nat) (hall : ∀ x ∈ post, x < 65536) :
    joinGroups post = [] ↔ post = [] := by
  cases post with
  | nil => simp [joinGroups]
  | cons p ps =>
    have := (head?_appendHex_append p (hall p (List.mem_cons_self _ _)) (sepGroups ps)).1
    simp [joinGroups, this]

/-- The loop of `parseIPv6` reads groups, the ellipsis after them, and the groups after
the ellipsis. -/
theorem parseIPv6Loop_ellipsis (post : List Nat) (hpost : ∀ x ∈ post, x < 65536) :
    ∀ (gs : List Nat) (g : Nat) (ip : List Byte) (fuel : Nat),
      (∀ x ∈ g :: gs, x < 65536) →
      ip.length + 2 * (gs.length + 1 + post.length) ≤ 16 →
      gs.length + 1 + post.length ≤ fuel →
      parseIPv6Loop fuel (appendHex g ++ (sepGroups gs ++ ':' :: ':' :: joinGroups post))
          ip none =
        some (ip ++ groupBytes (g :: gs) ++ groupBytes post,
          some (ip.length + 2 * (gs.length + 1)), []) := by
  intro gs
  induction gs with
  | nil =>
    intro g ip fuel hall hlen hfuel
    obtain ⟨f, rfl⟩ : ∃ f, fuel = f + 1 := ⟨fuel - 1, by simp at hfuel; omega⟩
    simp only [List.length_nil, Nat.zero_add] at hlen hfuel
    rw [sepGroups, List.nil_append, parseIPv6Loop_step f g (hall g (List.mem_cons_self _ _)) ip
      (by omega) none _ (Or.inr ⟨_, rfl⟩)]
    simp only [ne_eq, not_true, List.cons_ne_nil, or_self, if_false, List.head?_cons, if_true,
      Option.isSome_none, Bool.false_eq_true, List.tail_cons]
    cases post with
    | nil => simp [joinGroups, groupBytes]
    | cons p ps =>
      have hne := (joinGroups_eq_nil (p :: ps) hpost).not.2 (List.cons_ne_nil _ _)
      rw [if_neg hne, joinGroups, parseIPv6Loop_groups ps p _ f _ hpost
        (by simp only [List.length_append, List.length_cons, List.length_nil] at hlen ⊢; omega)
        (by simp only [List.length_cons] at hfuel; omega)]
      simp [groupBytes]
  | cons h t ih =>
    intro g ip fuel hall hlen hfuel
    obtain ⟨f, rfl⟩ : ∃ f, fuel = f + 1 := ⟨fuel - 1, by simp at hfuel; omega⟩
    have hh : h < 65536 := hall h (by simp)
    obtain ⟨hne, hhead⟩ := head?_appendHex_append h hh
      (sepGroups t ++ ':' :: ':' :: joinGroups post)
    simp only [List.length_cons] at hlen hfuel
    rw [sepGroups, List.cons_append, List.append_assoc,
      parseIPv6Loop_step f g (hall g (List.mem_cons_self _ _)) ip (by omega) none _
        (Or.inr ⟨_, rfl⟩)]
    simp only [ne_eq, not_true, hne, or_self, if_false, hhead]
    rw [ih h _ f (fun x hx => hall x (List.mem_cons_of_mem _ hx))
      (by simp only [List.length_append, List.length_cons, List.length_nil]; omega) (by omega)]
    simp only [groupBytes, List.length_append, List.length_cons, List.length_nil,
      List.append_assoc, List.cons_append, List.nil_append, Option.some.injEq, Prod.mk.injEq,
      and_true, true_and]
    omega

/-- Printing with the ellipsis behind: every group follows a colon. -/
theorem printGroups_after :
    ∀ (gs : List Nat) (i : Nat) (e0 e1 : Int), e0 < (i : Int) → 0 < i →
      printGroups gs i 0 false e0 e1 = sepGroups gs := by
  intro gs
  induction gs with
  | nil => intro i e0 e1 _ _; rfl
  | cons g gs ih =>
    intro i e0 e1 he hi
    have hne : ¬ (i : Int) = e0 := by omega
    rw [printGroups, if_neg hne, ih (i + 1) e0 e1 (by push_cast; omega) (Nat.succ_pos _)]
    simp [hi, sepGroups]

/-- Printing right after the `::`: the groups of the run are stepped over, the rest is
printed without a leading colon. -/
theorem printGroups_fresh :
    ∀ (gs : List Nat) (i skip : Nat) (e0 e1 : Int), e0 < (i : Int) →
      printGroups gs i skip true e0 e1 = joinGroups (gs.drop skip) := by
  intro gs
  induction gs with
  | nil => intro i skip e0 e1 _; cases skip <;> rfl
  | cons g gs ih =>
    intro i skip e0 e1 he
    cases skip with
    | zero =>
      have hne : ¬ (i : Int) = e0 := by omega
      rw [printGroups, if_neg hne,
        printGroups_after gs (i + 1) e0 e1 (by push_cast; omega) (Nat.succ_pos _)]
      simp [joinGroups]
    | succ skip =>
      rw [printGroups, ih (i + 1) skip e0 e1 (by push_cast; omega)]
      rfl

/-- Printing on the way to the ellipsis, past the first group. -/
theorem printGroups_before :
    ∀ (m : Nat) (gs : List Nat) (i n : Nat), 0 < i → m < gs.length → 1 ≤ n →
      printGroups gs i 0 false ((i + m : Nat) : Int) ((i + m + n : Nat) : Int) =
        sepGroups (gs.take m) ++ ':' :: ':' :: joinGroups (gs.drop (m + n)) := by
  intro m
  induction m with
  | zero =>
    intro gs i n hi hm hn
    cases gs with
    | nil => simp at hm
    | cons g gs =>
      have hskip : (((i + 0 + n : Nat) : Int) - ((i + 0 : Nat) : Int) - 1).toNat = n - 1 := by
        push_cast; omega
      have hdrop : (g :: gs).drop (0 + n) = gs.drop (n - 1) := by
        obtain ⟨n', rfl⟩ : ∃ n', n = n' + 1 := ⟨n - 1, by omega⟩
        simp
      rw [printGroups, if_pos (by simp), hskip,
        printGroups_fresh gs (i + 1) (n - 1) _ _ (by push_cast; omega), hdrop]
      simp [sepGroups]
  | succ m ih =>
    intro gs i n hi hm hn
    cases gs with
    | nil => simp at hm
    | cons g gs =>
      have hne : ¬ (i : Int) = ((i + (m + 1) : Nat) : Int) := by push_cast; omega
      have h1 : i + (m + 1) = i + 1 + m := by omega
      rw [printGroups, if_neg hne, h1, ih gs (i + 1) n (Nat.succ_pos _)
        (by simpa using hm) hn]
      simp [hi, sepGroups, Nat.add_right_comm m 1 n]

/-- The text `IP.String` prints when it elides the run of `n` groups at position `a`. -/
theorem printGroups_elided (G : List Nat) (a n : Nat) (ha : a < G.length) (hn : 1 ≤ n) :
    printGroups G 0 0 false (a : Int) ((a + n : Nat) : Int) =
      joinGroups (G.take a) ++ ':' :: ':' :: joinGroups (G.drop (a + n)) := by
  cases G with
  | nil => simp at ha
  | cons g G =>
    cases a with
    | zero =>
      have hskip : (((0 + n : Nat) : Int) - ((0 : Nat) : Int) - 1).toNat = n - 1 := by
        push_cast; omega
      have hdrop : (g :: G).drop (0 + n) = G.drop (n - 1) := by
        obtain ⟨n', rfl⟩ : ∃ n', n = n' + 1 := ⟨n - 1, by omega⟩
        simp
      rw [printGroups, if_pos rfl, hskip,
        printGroups_fresh G (0 + 1) (n - 1) _ _ (by omega), hdrop]
      simp [joinGroups]
    | succ m =>
      have hne : ¬ ((0 : Nat) : Int) = ((m + 1 : Nat) : Int) := by push_cast; omega
      have h1 : m + 1 = 0 + 1 + m := by omega
      have h2 : m + 1 + n = 0 + 1 + m + n := by omega
      rw [printGroups, if_neg hne]
      conv_lhs => rw [h1]
      rw [printGroups_before m G (0 + 1) n (Nat.succ_pos _) (by simpa using ha) hn]
      simp [joinGroups, Nat.add_right_comm m 1 n]

/-- The text `IP.String` prints when it elides nothing. -/
theorem printGroups_plain (G : List Nat) :
    printGroups G 0 0 false (-1) (-1) = joinGroups G := by
  cases G with
  | nil => rfl
  | cons g G =>
    rw [printGroups, if_neg (by decide),
      printGroups_after G (0 + 1) (-1) (-1) (by omega) (Nat.succ_pos _)]
    simp [joinGroups]

theorem zeroRun_take :
    ∀ gs : List Nat, gs.take (zeroRun gs) = List.replicate (zeroRun gs) 0 ∧
      zeroRun gs ≤ gs.length := by
  intro gs
  induction gs with
  | nil => exact ⟨rfl, Nat.le_refl _⟩
  | cons g gs ih =>
    cases g with
    | zero =>
      rw [zeroRun]
      exact ⟨by simp [List.replicate_succ, ih.1], by simp [ih.2]⟩
    | succ g => simp [zeroRun]

/-- What `findZeros` returns is no run or the bounds of a run of zero groups. -/
theorem findZeros_inv (G : List Nat) :
    ∀ (gs : List Nat) (i skip : Nat) (e0 e1 : Int), G.drop i = gs → ZeroRunAt G (e0, e1) →
      ZeroRunAt G (findZeros gs i skip e0 e1) := by
  intro gs
  induction gs with
  | nil => intro i skip e0 e1 _ h; exact h
  | cons g gs ih =>
    intro i skip e0 e1 hdrop h
    have hnext : G.drop (i + 1) = gs := by
      rw [← List.drop_drop, hdrop]
      rfl
    cases skip with
    | succ skip =>
      rw [findZeros]
      exact ih (i + 1) skip e0 e1 hnext h
    | zero =>
      rw [findZeros]
      by_cases hc : zeroRun (g :: gs) > 0 ∧ ((zeroRun (g :: gs) : Nat) : Int) > e1 - e0
      · simp only [hc, and_self, if_true]
        apply ih (i + 1) _ _ _ hnext
        refine Or.inr ⟨i, zeroRun (g :: gs), ?_, hc.1, ?_, ?_⟩
        · simp
        · have hlen : (G.drop i).length = (g :: gs).length := by rw [hdrop]
          have := (zeroRun_take (g :: gs)).2
          rw [List.length_drop] at hlen
          omega
        · rw [hdrop]
          exact (zeroRun_take (g :: gs)).1
      · simp only [hc, if_false]
        exact ih (i + 1) 0 e0 e1 hnext h

theorem groupBytes_append (xs ys : List Nat) :
    groupBytes (xs ++ ys) = groupBytes xs ++ groupBytes ys := by
  induction xs with
  | nil => rfl
  | cons x xs ih => simp [groupBytes, ih]

theorem groupBytes_zeros (n : Nat) :
    groupBytes (List.replicate n 0) = List.replicate (2 * n) 0 := by
  induction n with
  | zero => rfl
  | succ n ih =>
    have h : 2 * (n + 1) = 2 * n + 1 + 1 := by omega
    rw [List.replicate_succ, groupBytes, ih, h, List.replicate_succ, List.replicate_succ]
    rfl

theorem groupBytes_length (xs : List Nat) : (groupBytes xs).length = 2 * xs.length := by
  induction xs with
  | nil => rfl
  | cons x xs ih => simp only [groupBytes, List.length_cons, ih]; omega

/-- The groups of an address of `2 * k` bytes: `k` of them, each below `2 ^ 16`, holding
the bytes of the address. -/
theorem groups_spec :
    ∀ (k : Nat) (ip : List Byte), ip.length = 2 * k →
      (groups ip).length = k ∧ (∀ x ∈ groups ip, x < 65536) ∧ groupBytes (groups ip) = ip := by
  intro k
  induction k with
  | zero =>
    intro ip h
    have : ip = [] := List.length_eq_zero.1 (by simpa using h)
    subst this
    exact ⟨rfl, by simp [groups], rfl⟩
  | succ k ih =>
    intro ip h
    match ip, h with
    | a :: b :: rest, h =>
      have hrest : rest.length = 2 * k := by
        simp only [List.length_cons] at h
        omega
      obtain ⟨h1, h2, h3⟩ := ih rest hrest
      have ha := a.isLt
      have hb := b.isLt
      refine ⟨by simp [groups, h1], ?_, ?_⟩
      · intro x hx
        simp only [groups, List.mem_cons] at hx
        rcases hx with rfl | hx
        · omega
        · exact h2 x hx
      · have e1 : toByte ((a.val * 256 + b.val) / 256) = a := by
          apply Fin.ext
          simp only [toByte]
          omega
        have e2 : toByte (a.val * 256 + b.val) = b := by
          apply Fin.ext
          simp only [toByte]
          omega
        simp only [groups, groupBytes, e1, e2, h3]

theorem take_two_appendHex (g : Nat) (hg : g < 65536) (tail : List Char) :
    ¬ (appendHex g ++ tail).take 2 = [':', ':'] := by
  obtain ⟨d, rest, hd, heq⟩ := appendHex_head g hg
  rw [heq]
  intro h
  simp only [List.cons_append, List.take_succ_cons] at h
  exact (hexDigit_not_separator hd).2 (List.cons.inj h).1

/-- `parseIPv6` reads back eight groups printed in full. -/
theorem parseIPv6_plain (G : List Nat) (hlen : G.length = 8) (hall : ∀ x ∈ G, x < 65536) :
    parseIPv6 (joinGroups G) = groupBytes G := by
  cases G with
  | nil => simp at hlen
  | cons g G =>
    have hloop := parseIPv6Loop_groups G g [] 8 none hall
      (by simp only [List.length_cons] at hlen; simp only [List.length_nil]; omega)
      (by simp only [List.length_cons] at hlen; omega)
    have hbytes : ¬ (groupBytes (g :: G)).length < 16 := by
      rw [groupBytes_length, hlen]; decide
    rw [joinGroups, parseIPv6]
    simp only [take_two_appendHex g (hall g (List.mem_cons_self _ _)), if_false, hloop,
      List.nil_append, false_and, ne_eq, not_true, hbytes, Option.isSome_none,
      Bool.false_eq_true]
    simp

/-- `parseIPv6` reads back groups printed with a run of `n` zero groups at position `a`
elided. -/
theorem parseIPv6_elided (G : List Nat) (hlen : G.length = 8) (hall : ∀ x ∈ G, x < 65536)
    (a n : Nat) (hn : 1 ≤ n) (han : a + n ≤ G.length)
    (hzero : (G.drop a).take n = List.replicate n 0) :
    parseIPv6 (joinGroups (G.take a) ++ ':' :: ':' :: joinGroups (G.drop (a + n)))
      = groupBytes G := by
  have hsplit : G = G.take a ++ (List.replicate n 0 ++ G.drop (a + n)) := by
    rw [← hzero, ← List.drop_drop, List.take_append_drop, List.take_append_drop]
  have hpost : ∀ x ∈ G.drop (a + n), x < 65536 := fun x hx => hall x (List.mem_of_mem_drop hx)
  have hpre : ∀ x ∈ G.take a, x < 65536 := fun x hx => hall x (List.mem_of_mem_take hx)
  have hplen : (G.drop (a + n)).length = 8 - (a + n) := by rw [List.length_drop, hlen]
  have htlen : (G.take a).length = a := by rw [List.length_take, hlen]; omega
  have hbytes : groupBytes G =
      groupBytes (G.take a) ++ (List.replicate (2 * n) 0 ++ groupBytes (G.drop (a + n))) := by
    conv_lhs => rw [hsplit]
    rw [groupBytes_append, groupBytes_append, groupBytes_zeros]
  rw [hlen] at han
  generalize hP : G.drop (a + n) = post at hpost hplen hbytes
  generalize hQ : G.take a = pre at hpre htlen hbytes
  rw [hbytes, parseIPv6]
  cases pre with
  | nil =>
    have ha0 : a = 0 := by simpa using htlen.symm
    subst ha0
    have hj : joinGroups [] = [] := rfl
    have hgb : groupBytes [] = [] := rfl
    simp only [hj, hgb, List.nil_append, List.take_succ_cons, List.take_zero, if_true,
      List.drop_succ_cons, List.drop_zero, true_and]
    cases post with
    | nil =>
      have : n = 8 := by simp only [List.length_nil] at hplen; omega
      subst this
      simp [joinGroups, groupBytes]
    | cons p ps =>
      have hne := (joinGroups_eq_nil (p :: ps) hpost).not.2 (List.cons_ne_nil _ _)
      have hloop := parseIPv6Loop_groups ps p [] 8 (some 0) hpost
        (by simp only [List.length_cons] at hplen; simp only [List.length_nil]; omega)
        (by simp only [List.length_cons] at hplen; omega)
      have hlt : (groupBytes (p :: ps)).length < 16 := by
        rw [groupBytes_length, hplen]; omega
      have hcount : 16 - (groupBytes (p :: ps)).length = 2 * n := by
        rw [groupBytes_length, hplen]; omega
      have hjp : joinGroups (p :: ps) = appendHex p ++ sepGroups ps := rfl
      rw [if_neg hne, hjp]
      simp only [hloop, List.nil_append, ne_eq, not_true, if_false, hlt, if_true, List.take_zero,
        List.drop_zero, hcount]
  | cons g pre =>
    have hg : g < 65536 := hpre g (List.mem_cons_self _ _)
    have hloop := parseIPv6Loop_ellipsis post hpost pre g [] 8 hpre
      (by simp only [List.length_cons] at htlen; simp only [List.length_nil]; omega)
      (by simp only [List.length_cons] at htlen; omega)
    have hlt : (groupBytes (g :: pre) ++ groupBytes post).length < 16 := by
      rw [List.length_append, groupBytes_length, groupBytes_length, hplen, htlen]; omega
    have hcount : 16 - (groupBytes (g :: pre) ++ groupBytes post).length = 2 * n := by
      rw [List.length_append, groupBytes_length, groupBytes_length, hplen, htlen]; omega
    have hell : 0 + 2 * (pre.length + 1) = (groupBytes (g :: pre)).length := by
      rw [groupBytes_length, List.length_cons]; omega
    rw [joinGroups, List.append_assoc]
    simp only [take_two_appendHex g hg, if_false, hloop, List.nil_append, false_and, ne_eq,
      not_true, hlt, if_true, hcount, List.length_nil, hell, List.take_left', List.drop_left']
    simp

theorem ParseIPChars_colon (s X : List Char) : ParseIPChars s (':' :: X) = parseIPv6 s := by
  rw [ParseIPChars, if_neg (by decide), if_pos rfl]

theorem sepGroups_append_colon (gs : List Nat) (X : List Char) :
    ∃ Y, sepGroups gs ++ ':' :: X = ':' :: Y := by
  cases gs with
  | nil => exact ⟨X, rfl⟩
  | cons g gs => exact ⟨_, rfl⟩

/-- `ParseIP` reads back eight groups printed in full. -/
theorem ParseIP_plain (G : List Nat) (hlen : G.length = 8) (hall : ∀ x ∈ G, x < 65536) :
    ParseIP ⟨joinGroups G⟩ = groupBytes G := by
  rw [ParseIP]
  simp only
  rw [← parseIPv6_plain G hlen hall]
  match G, hlen, hall with
  | g :: h :: G, _, hall =>
    simp only [joinGroups, sepGroups]
    rw [ParseIPChars_appendHex _ g (hall g (List.mem_cons_self _ _)), ParseIPChars_colon]

/-- `ParseIP` reads back groups printed with a run of zero groups elided. -/
theorem ParseIP_elided (G : List Nat) (hlen : G.length = 8) (hall : ∀ x ∈ G, x < 65536)
    (a n : Nat) (hn : 1 ≤ n) (han : a + n ≤ G.length)
    (hzero : (G.drop a).take n = List.replicate n 0) :
    ParseIP ⟨joinGroups (G.take a) ++ ':' :: ':' :: joinGroups (G.drop (a + n))⟩
      = groupBytes G := by
  rw [ParseIP]
  simp only
  rw [← parseIPv6_elided G hlen hall a n hn han hzero]
  have hpre : ∀ x ∈ G.take a, x < 65536 := fun x hx => hall x (List.mem_of_mem_take hx)
  generalize G.take a = pre at hpre
  generalize joinGroups (G.drop (a + n)) = jp
  cases pre with
  | nil =>
    simp only [joinGroups, List.nil_append]
    rw [ParseIPChars_colon]
  | cons g pre =>
    obtain ⟨Y, hY⟩ := sepGroups_append_colon pre (':' :: jp)
    simp only [joinGroups, List.append_assoc, hY]
    rw [ParseIPChars_appendHex _ g (hpre g (List.mem_cons_self _ _)), ParseIPChars_colon]

theorem String_v6 (ip : IP) (h16 : ip.length = 16) (hnm : ip.take 12 ≠ v4InV6Prefix) :
    ip.String =
      ⟨printGroups (groups ip) 0 0 false
        (if (findZeros (groups ip) 0 0 (-1) (-1)).2 - (findZeros (groups ip) 0 0 (-1) (-1)).1 ≤ 1
          then ((-1 : Int), (-1 : Int)) else findZeros (groups ip) 0 0 (-1) (-1)).1
        (if (findZeros (groups ip) 0 0 (-1) (-1)).2 - (findZeros (groups ip) 0 0 (-1) (-1)).1 ≤ 1
          then ((-1 : Int), (-1 : Int)) else findZeros (groups ip) 0 0 (-1) (-1)).2⟩ := by
  simp [IP.String, IP.To4, h16, hnm]

/-- `ParseIP` reads back the text of every 16-byte address that is not IPv4-mapped. -/
theorem ParseIP_String_v6 (ip : IP) (h16 : ip.length = 16) (hnm : ip.take 12 ≠ v4InV6Prefix) :
    ParseIP ip.String = ip := by
  obtain ⟨hlen, hall, hbytes⟩ := groups_spec 8 ip h16
  have hinv := findZeros_inv (groups ip) (groups ip) 0 0 (-1) (-1) rfl (Or.inl rfl)
  rw [String_v6 ip h16 hnm]
  generalize findZeros (groups ip) 0 0 (-1) (-1) = e at hinv
  rcases hinv with rfl | ⟨a, n, rfl, hn, han, hz⟩
  · simp only [sub_self, zero_le_one, if_true]
    rw [printGroups_plain, ParseIP_plain _ hlen hall, hbytes]
  · by_cases hshort : n ≤ 1
    · have hc : ((a + n : Nat) : Int) - (a : Int) ≤ 1 := by omega
      simp only [hc, if_true]
      rw [printGroups_plain, ParseIP_plain _ hlen hall, hbytes]
    · have hc : ¬ ((a + n : Nat) : Int) - (a : Int) ≤ 1 := by omega
      simp only [hc, if_false]
      rw [printGroups_elided _ a n (by omega) hn, ParseIP_elided _ hlen hall a n hn han hz,
        hbytes]

theorem To16_of_length_16 (ip : IP) (h16 : ip.length = 16) : ip.To16 = ip := by
  unfold IP.To16
  split
  · simp at h16
  · simp [h16]

/-- `ParseIP` reads the text of every address of 4 or 16 bytes back as its 16-byte form. -/
theorem ParseIP_String_valid (addr : IP) (h : addr.length = 4 ∨ addr.length = 16) :
    ParseIP addr.String = addr.To16 := by
  rcases h with h4 | h16
  · match addr, h4 with
    | [a, b, c, d], _ => rw [String_v4, ParseIP_dotted]; rfl
  · rw [To16_of_length_16 addr h16]
    by_cases hm : addr.take 12 = v4InV6Prefix
    · have hd : (addr.drop 12).length = 4 := by rw [List.length_drop, h16]
      have hsplit : addr = v4InV6Prefix ++ addr.drop 12 := by
        rw [← hm, List.take_append_drop]
      match hq : addr.drop 12, hd with
      | [a, b, c, d], _ =>
        have haddr : addr = IPv4 a b c d := by rw [hsplit, hq]; rfl
        rw [haddr, String_mapped, ParseIP_dotted]
    · exact ParseIP_String_v6 addr h16 hm

/-- C4, amended: after `Reserve(owner, addr, range)` returned `(true, nil)` on a fault-free
store, `LastReservedIP(range)` returns `net.ParseIP(addr.String())` with a `nil` error.
For every address of 4 or 16 bytes that is `addr.To16()`, an address equal to `addr`
under `IP.Equal`: `addr` itself when it has 16 bytes (IPv4-mapped or IPv6), its 16-byte
form when it has 4 bytes.  For the `nil` address it is `nil`.  For a `net.IP` of any
other length it is `nil`, not `addr`. -/
theorem LastReservedIP_after_Reserve (s : Store) (o : Oracle) (hff : o.FaultFree)
    (c : Client) (owner : String) (addr : IP) (rangeID : String)
    (h : (s.Reserve o c owner addr rangeID).1 = (true, none)) :
    (s.LastReservedIP o (s.Reserve o c owner addr rangeID).2 rangeID).1
      = (ParseIP addr.String, none) ∧
    (addr.length = 4 ∨ addr.length = 16 →
      ParseIP addr.String = addr.To16 ∧ (ParseIP addr.String).Equal addr = true) ∧
    (addr.length = 16 → ParseIP addr.String = addr) ∧
    (∀ a b c d : Byte, addr = [a, b, c, d] → ParseIP addr.String = IPv4 a b c d) ∧
    (addr = [] → ParseIP addr.String = []) ∧
    (addr.length ≠ 0 → addr.length ≠ 4 → addr.length ≠ 16 →
      ParseIP addr.String = [] ∧ ParseIP addr.String ≠ addr) := by
  have hfree : c.server.kvs.lookup (s.usedKey addr) = none := by
    rw [Reserve_claimed_iff hff] at h
    simpa using h
  refine ⟨?_, ?_, ?_, ?_, ?_, ?_⟩
  · rw [LastReservedIP_eq s o _ rangeID (hff _), Reserve_free hff c owner addr rangeID hfree]
    obtain ⟨cr, hcr⟩ := lookup_put_self (c.server.put (s.usedKey addr) owner 0)
      (s.lastReservedKey rangeID) addr.String 0
    simp only [hcr]
  · intro hlen
    refine ⟨ParseIP_String_valid addr hlen, ?_⟩
    rw [ParseIP_String_valid addr hlen]
    rcases hlen with h4 | h16
    · match addr, h4 with
      | [a, b, c, d], _ => simp [IP.To16, IP.Equal, IPv4, v4InV6Prefix]
    · rw [To16_of_length_16 addr h16]
      simp [IP.Equal]
  · intro h16
    rw [ParseIP_String_valid addr (Or.inr h16), To16_of_length_16 addr h16]
  · rintro a b c d rfl
    rw [String_v4, ParseIP_dotted]
  · rintro rfl
    decide
  · intro h0 h4 h16
    have hp := ParseIP_String_other addr h0 h4 h16
    refine ⟨hp, ?_⟩
    rw [hp]
    intro he
    rw [← he] at h0
    exact h0 rfl

theorem LastReservedIP_after_Reserve_witness :
    calm.FaultFree ∧
    (net1.Reserve calm registered "containerA" ip5 "range0").1 = (true, none) ∧
    (net1.LastReservedIP calm
      (net1.Reserve calm registered "containerA" ip5 "range0").2 "range0").1
      = ([0, 0, 0, 0, 0, 0, 0, 0, 0, 0, 255, 255, 10, 0, 0, 5], none) ∧
    IP.Equal [0, 0, 0, 0, 0, 0, 0, 0, 0, 0, 255, 255, 10, 0, 0, 5] ip5 = true ∧
    (net1.Reserve calm registered "containerB" ip6 "range6").1 = (true, none) ∧
    ip6.String = "2001:db8::1" ∧
    (net1.LastReservedIP calm
      (net1.Reserve calm registered "containerB" ip6 "range6").2 "range6").1 = (ip6, none) :=
  have h := LastReservedIP_after_Reserve net1 calm (fun _ => rfl) registered "containerA" ip5
    "range0" (by decide)
  have h6 := LastReservedIP_after_Reserve net1 calm (fun _ => rfl) registered "containerB" ip6
    "range6" (by decide)
  ⟨fun _ => rfl, by decide, h.1.trans (by decide), by decide, by decide, by decide,
    h6.1.trans (by rw [h6.2.2.1 (by decide)])⟩

end CniIpamEtcd
